import Mathlib

/-!
Verification of the DHT repository's partitioning-and-quorum core.

The Go source is shallowly embedded:
* Go maps (`map[string]V`) become association lists `List (String × V)`;
  a map value that may be `nil` (such as `clock.VectorClock`) becomes an
  `Option` of the association list, with `none` modelling the nil map.
* Go `uint64` counters become `Nat`.  The only arithmetic performed on them
  by the source is `+ 1` (in `Increment`) and comparisons, so wrap-around
  can never be reached from the constructors and is not modelled.
* Byte slices become `List Nat`; a possibly-`nil` slice becomes
  `Option (List Nat)`.
* The MD5-based position hash of the ring is an explicit parameter
  `hashFn : String → Nat`: every property claimed for the ring holds for an
  arbitrary hash function, so nothing about MD5 itself is needed.
* Stateful loops become structural recursions or folds; the per-replica
  outcome of network calls and local store calls is an explicit oracle.
-/

namespace DHT

/-! ## Association lists modelling Go maps -/

/-- Go map read `m[k]` together with its `ok` flag: the first binding of `k`,
if any. -/
def alookup {β : Type} (m : List (String × β)) (k : String) : Option β :=
  match m with
  | [] => none
  | p :: rest => if p.1 = k then some p.2 else alookup rest k

/-- Go map write `m[k] = v`: replace the first binding of `k`, or append a
new binding. -/
def aset {β : Type} (m : List (String × β)) (k : String) (v : β) :
    List (String × β) :=
  match m with
  | [] => [(k, v)]
  | p :: rest => if p.1 = k then (k, v) :: rest else p :: aset rest k v

/-- The keys of a Go map. -/
def akeys {β : Type} (m : List (String × β)) : List String :=
  m.map Prod.fst

theorem alookup_eq_none_of_not_mem {β : Type} {m : List (String × β)}
    {k : String} (h : k ∉ akeys m) : alookup m k = none := by
  induction m with
  | nil => rfl
  | cons p rest ih =>
    have hk : p.1 ≠ k := by
      intro he
      exact h (by simp [akeys, he])
    simp only [alookup, if_neg hk]
    exact ih (fun hmem => h (by simp only [akeys, List.map_cons]; exact List.mem_cons_of_mem _ hmem))

theorem mem_of_alookup_eq_some {β : Type} {m : List (String × β)} {k : String}
    {v : β} (h : alookup m k = some v) : (k, v) ∈ m := by
  induction m with
  | nil => simp [alookup] at h
  | cons p rest ih =>
    simp only [alookup] at h
    by_cases hk : p.1 = k
    · rw [if_pos hk] at h
      obtain ⟨a, b⟩ := p
      cases hk
      injection h with h
      cases h
      exact List.mem_cons_self _ _
    · rw [if_neg hk] at h
      exact List.mem_cons_of_mem _ (ih h)

theorem alookup_eq_some_of_mem {β : Type} {m : List (String × β)} {k : String}
    {v : β} (hnd : (akeys m).Nodup) (h : (k, v) ∈ m) : alookup m k = some v := by
  induction m with
  | nil => simp at h
  | cons p rest ih =>
    simp only [akeys, List.map_cons, List.nodup_cons] at hnd
    rcases List.mem_cons.mp h with h1 | h2
    · subst h1
      simp [alookup]
    · have hk : p.1 ≠ k := by
        intro he
        exact hnd.1 (he ▸ (List.mem_map.mpr ⟨(k, v), h2, rfl⟩))
      simp only [alookup, if_neg hk]
      exact ih hnd.2 h2

theorem isSome_alookup_iff {β : Type} {m : List (String × β)} {k : String} :
    (alookup m k).isSome = true ↔ k ∈ akeys m := by
  induction m with
  | nil => simp [alookup, akeys]
  | cons p rest ih =>
    simp only [alookup, akeys, List.map_cons, List.mem_cons]
    by_cases hk : p.1 = k
    · simp [hk]
    · rw [if_neg hk]
      simp only [akeys] at ih
      rw [ih]
      constructor
      · exact fun h => Or.inr h
      · rintro (h | h)
        · exact absurd h.symm hk
        · exact h

theorem alookup_append_left {β : Type} {m₁ m₂ : List (String × β)} {k : String}
    {v : β} (h : alookup m₁ k = some v) : alookup (m₁ ++ m₂) k = some v := by
  induction m₁ with
  | nil => simp [alookup] at h
  | cons p rest ih =>
    simp only [alookup] at h ⊢
    by_cases hk : p.1 = k
    · rwa [if_pos hk] at h ⊢
    · rw [if_neg hk] at h ⊢
      exact ih h

theorem alookup_append_right {β : Type} {m₁ m₂ : List (String × β)} {k : String}
    (h : alookup m₁ k = none) : alookup (m₁ ++ m₂) k = alookup m₂ k := by
  induction m₁ with
  | nil => rfl
  | cons p rest ih =>
    simp only [alookup] at h ⊢
    by_cases hk : p.1 = k
    · rw [if_pos hk] at h
      exact absurd h (by simp)
    · rw [if_neg hk] at h ⊢
      exact ih h

theorem alookup_aset_self {β : Type} (m : List (String × β)) (k : String)
    (v : β) : alookup (aset m k v) k = some v := by
  induction m with
  | nil => simp [aset, alookup]
  | cons p rest ih =>
    simp only [aset]
    by_cases hk : p.1 = k
    · simp [hk, alookup]
    · simp only [if_neg hk, alookup, if_neg hk]
      exact ih

theorem alookup_aset_ne {β : Type} (m : List (String × β)) {k k₂ : String}
    (v : β) (h : k ≠ k₂) : alookup (aset m k v) k₂ = alookup m k₂ := by
  induction m with
  | nil => simp [aset, alookup, if_neg h]
  | cons p rest ih =>
    simp only [aset]
    by_cases hk : p.1 = k
    · simp [alookup, if_neg h, hk]
    · simp only [if_neg hk, alookup]
      by_cases hk2 : p.1 = k₂
      · simp [if_pos hk2]
      · simp only [if_neg hk2]
        exact ih

theorem akeys_aset {β : Type} (m : List (String × β)) (k : String) (v : β) :
    akeys (aset m k v) = if k ∈ akeys m then akeys m else akeys m ++ [k] := by
  induction m with
  | nil => simp [aset, akeys]
  | cons p rest ih =>
    simp only [aset, akeys, List.map_cons]
    by_cases hk : p.1 = k
    · simp [hk, akeys]
    · simp only [if_neg hk, List.map_cons, List.mem_cons]
      have : ¬ k = p.1 := fun h => hk h.symm
      simp only [akeys] at ih
      by_cases hm : k ∈ rest.map Prod.fst
      · simp [hm, this, ih]
      · simp [hm, this, ih]

/-! ## The `clock` package: vector clocks (src/internal/clock/vectorclock.go)

Go type `VectorClock = map[string]uint64`.  A non-nil map is a `VCMap`;
`VectorClock` is `Option VCMap`, with `none` for Go's nil map. -/

namespace clock

abbrev VCMap := List (String × Nat)

abbrev VectorClock := Option VCMap

/-- `New()` creates an empty (non-nil) vector clock. -/
def New : VCMap := []

/-- `NewWithNode(nodeID)` creates a clock with a single node set to 1. -/
def NewWithNode (nodeID : String) : VCMap := [(nodeID, 1)]

/-- Counter read with Go's zero default: `vc[nodeID]` on a missing key is 0. -/
def getVC (m : VCMap) (k : String) : Nat := (alookup m k).getD 0

/-- First loop of `Compare` restricted to the clause that can clear `bDom`:
`bDom` survives iff every entry of `a` has a counterpart in `b` that is ≥ it
(`!ok || av > bv` clears the flag). -/
def allLeLookup (a b : VCMap) : Bool :=
  a.all fun p =>
    match alookup b p.1 with
    | none => false
    | some bv => decide (p.2 ≤ bv)

/-- The clause of `Compare` that can clear `aDom` inside the loop over `a`:
`aDom` survives iff no entry of `a` is strictly below a counterpart in `b`
(`ok && av < bv` clears the flag). -/
def allNotLtLookup (a b : VCMap) : Bool :=
  a.all fun p =>
    match alookup b p.1 with
    | none => true
    | some bv => decide (¬ p.2 < bv)

/-- `Compare(a, b)` on two non-nil maps: the `aDom`/`bDom` flags after both
loops, then `1` / `-1` / `0`.  `aDom` survives the loop over `a` via
`allNotLtLookup a b` and the loop over `b` via `allLeLookup b a`
(`!ok || bv > av` clears it); symmetrically for `bDom`. -/
def compareMaps (a b : VCMap) : Int :=
  let aDom := allNotLtLookup a b && allLeLookup b a
  let bDom := allLeLookup a b && allNotLtLookup b a
  if aDom && !bDom then 1 else if bDom && !aDom then -1 else 0

/-- `Compare(a, b)` with the nil checks of the source:
nil/nil ↦ 0, nil/non-nil ↦ -1, non-nil/nil ↦ 1. -/
def Compare (a b : VectorClock) : Int :=
  match a, b with
  | none, none => 0
  | none, some _ => -1
  | some _, none => 1
  | some ma, some mb => compareMaps ma mb

/-- `Increment(nodeID)` on a non-nil clock: `vc[nodeID] = vc[nodeID] + 1`.
(On a nil clock the source replaces the local variable with a fresh map, so
the caller's clock is unchanged; the claims only increment non-nil copies.) -/
def Increment (m : VCMap) (nodeID : String) : VCMap :=
  aset m nodeID (getVC m nodeID + 1)

/-- `Copy()`: a nil clock copies to `New()`; value semantics make the deep
copy of a non-nil map the map itself. -/
def Copy (vc : VectorClock) : VCMap :=
  match vc with
  | none => New
  | some m => m

/-- One step of the loop of `Merge` over `b`: `!ok || value > existing`
stores `value` under the key. -/
def mergeStep (merged : VCMap) (p : String × Nat) : VCMap :=
  match alookup merged p.1 with
  | none => merged ++ [p]
  | some existing => if existing < p.2 then aset merged p.1 p.2 else merged

/-- `Merge` on two non-nil maps: copy all of `a`, then fold the loop over `b`
taking the maximum. -/
def mergeMaps (a b : VCMap) : VCMap :=
  b.foldl mergeStep a

/-- `a.Merge(b)` with the nil checks of the source. -/
def Merge (a b : VectorClock) : VectorClock :=
  match a, b with
  | none, none => some New
  | none, some mb => some mb
  | some ma, none => some ma
  | some ma, some mb => some (mergeMaps ma mb)

/-- `IsEmpty()`: `len(vc) == 0`; a nil map has length 0. -/
def IsEmpty (vc : VectorClock) : Bool :=
  match vc with
  | none => true
  | some m => m.isEmpty

/-- A well-formed map value: distinct keys (every Go map has them) and
positive counters (every constructor of the package produces them: counters
start at 1 and only grow). -/
def WFvc (m : VCMap) : Prop :=
  (akeys m).Nodup ∧ ∀ p ∈ m, 0 < p.2

instance (m : VCMap) : Decidable (WFvc m) := by
  unfold WFvc
  infer_instance

/-- `a` dominates `b`: every counter of `b` is ≤ the matching counter of `a`
(missing entries read as 0). -/
def Dominates (a b : VCMap) : Prop :=
  ∀ k, getVC b k ≤ getVC a k

/-- `a` strictly dominates `b`: domination plus a strict inequality
somewhere, i.e. the clocks are not equal as functions. -/
def StrictlyDominates (a b : VCMap) : Prop :=
  Dominates a b ∧ ∃ k, getVC b k < getVC a k

/-- Lookup through a possibly-nil clock. -/
def lookupO (v : VectorClock) (k : String) : Option Nat :=
  match v with
  | none => none
  | some m => alookup m k

/-- Counter read through a possibly-nil clock, 0 when absent. -/
def getO (v : VectorClock) (k : String) : Nat :=
  (lookupO v k).getD 0

/-- Keys of a possibly-nil clock. -/
def keysO (v : VectorClock) : List String :=
  match v with
  | none => []
  | some m => akeys m

/-- Well-formedness of a possibly-nil clock. -/
def WFO (v : VectorClock) : Prop :=
  match v with
  | none => True
  | some m => WFvc m

instance : (v : VectorClock) → Decidable (WFO v) := fun v =>
  match v with
  | none => isTrue trivial
  | some m => inferInstanceAs (Decidable (WFvc m))

/-- Distinct keys of a possibly-nil clock. -/
def NodupO (v : VectorClock) : Prop :=
  match v with
  | none => True
  | some m => (akeys m).Nodup

instance : (v : VectorClock) → Decidable (NodupO v) := fun v =>
  match v with
  | none => isTrue trivial
  | some m => inferInstanceAs (Decidable ((akeys m).Nodup))

theorem getVC_eq_of_mem {m : VCMap} {k : String} {v : Nat}
    (hnd : (akeys m).Nodup) (h : (k, v) ∈ m) : getVC m k = v := by
  unfold getVC
  rw [alookup_eq_some_of_mem hnd h]
  rfl

theorem strictlyDominates_iff {a b : VCMap} :
    StrictlyDominates a b ↔ Dominates a b ∧ ¬ Dominates b a := by
  constructor
  · rintro ⟨hd, k, hk⟩
    exact ⟨hd, fun hd2 => absurd (hd2 k) (Nat.not_le.mpr hk)⟩
  · rintro ⟨hd, hnd⟩
    refine ⟨hd, ?_⟩
    unfold Dominates at hnd
    push_neg at hnd
    obtain ⟨k, hk⟩ := hnd
    exact ⟨k, Nat.lt_of_not_le (by omega)⟩

/-- The pair of loop flags that keeps `aDom` alive is exactly domination of
`b` by `a`, for well-formed clocks. -/
theorem domFlag_iff {a b : VCMap} (ha : WFvc a) (hb : WFvc b) :
    (allNotLtLookup a b && allLeLookup b a) = true ↔ Dominates a b := by
  constructor
  · intro h
    obtain ⟨_, hle⟩ := Bool.and_eq_true_iff.mp h
    intro k
    cases hcb : alookup b k with
    | none => simp [getVC, hcb]
    | some bv =>
      have hmem := mem_of_alookup_eq_some hcb
      have := List.all_eq_true.mp hle ⟨k, bv⟩ hmem
      simp only at this
      cases hca : alookup a k with
      | none => rw [hca] at this; exact absurd this (by simp)
      | some av =>
        rw [hca] at this
        simp only [decide_eq_true_eq] at this
        simp [getVC, hca, hcb, this]
  · intro hd
    rw [Bool.and_eq_true_iff]
    constructor
    · rw [allNotLtLookup, List.all_eq_true]
      intro p hp
      cases hcb : alookup b p.1 with
      | none => simp
      | some bv =>
        simp only [decide_eq_true_eq]
        have h1 : getVC a p.1 = p.2 := getVC_eq_of_mem ha.1 hp
        have h2 : getVC b p.1 = bv := by simp [getVC, hcb]
        have := hd p.1
        omega
    · rw [allLeLookup, List.all_eq_true]
      intro p hp
      have h1 : getVC b p.1 = p.2 := getVC_eq_of_mem hb.1 hp
      have hpos : 0 < p.2 := hb.2 p hp
      have hle := hd p.1
      cases hca : alookup a p.1 with
      | none =>
        have : getVC a p.1 = 0 := by simp [getVC, hca]
        omega
      | some av =>
        have : getVC a p.1 = av := by simp [getVC, hca]
        simp only [decide_eq_true_eq]
        omega

theorem compareMaps_eq_one_iff {a b : VCMap} (ha : WFvc a) (hb : WFvc b) :
    compareMaps a b = 1 ↔ StrictlyDominates a b := by
  rw [strictlyDominates_iff]
  have hA := domFlag_iff ha hb
  have hB : (allLeLookup a b && allNotLtLookup b a) = true ↔ Dominates b a := by
    rw [Bool.and_comm]
    exact domFlag_iff hb ha
  unfold compareMaps
  cases h1 : (allNotLtLookup a b && allLeLookup b a) <;>
    cases h2 : (allLeLookup a b && allNotLtLookup b a) <;>
      simp_all

theorem compareMaps_eq_neg_one_iff {a b : VCMap} (ha : WFvc a) (hb : WFvc b) :
    compareMaps a b = -1 ↔ StrictlyDominates b a := by
  rw [strictlyDominates_iff]
  have hA := domFlag_iff ha hb
  have hB : (allLeLookup a b && allNotLtLookup b a) = true ↔ Dominates b a := by
    rw [Bool.and_comm]
    exact domFlag_iff hb ha
  unfold compareMaps
  cases h1 : (allNotLtLookup a b && allLeLookup b a) <;>
    cases h2 : (allLeLookup a b && allNotLtLookup b a) <;>
      simp_all

theorem compareMaps_eq_zero_iff {a b : VCMap} (ha : WFvc a) (hb : WFvc b) :
    compareMaps a b = 0 ↔ ¬ StrictlyDominates a b ∧ ¬ StrictlyDominates b a := by
  rw [strictlyDominates_iff, strictlyDominates_iff]
  have hA := domFlag_iff ha hb
  have hB : (allLeLookup a b && allNotLtLookup b a) = true ↔ Dominates b a := by
    rw [Bool.and_comm]
    exact domFlag_iff hb ha
  unfold compareMaps
  cases h1 : (allNotLtLookup a b && allLeLookup b a) <;>
    cases h2 : (allLeLookup a b && allNotLtLookup b a) <;>
      simp_all

theorem compareMaps_self (a : VCMap) : compareMaps a a = 0 := by
  unfold compareMaps
  cases h1 : allNotLtLookup a a <;> cases h2 : allLeLookup a a <;> simp [h1, h2]

theorem compareMaps_antisymm {a b : VCMap} (h : compareMaps a b = 1) :
    compareMaps b a = -1 := by
  unfold compareMaps at h ⊢
  cases h1 : allNotLtLookup a b <;> cases h2 : allLeLookup b a <;>
    cases h3 : allLeLookup a b <;> cases h4 : allNotLtLookup b a <;>
      simp_all

theorem mem_aset {β : Type} {m : List (String × β)} {k : String} {v : β}
    {p : String × β} (h : p ∈ aset m k v) : p = (k, v) ∨ p ∈ m := by
  induction m with
  | nil => simp [aset] at h; simp [h]
  | cons q rest ih =>
    simp only [aset] at h
    by_cases hk : q.1 = k
    · rw [if_pos hk] at h
      rcases List.mem_cons.mp h with h1 | h2
      · exact Or.inl h1
      · exact Or.inr (List.mem_cons_of_mem _ h2)
    · rw [if_neg hk] at h
      rcases List.mem_cons.mp h with h1 | h2
      · exact Or.inr (h1 ▸ List.mem_cons_self _ _)
      · rcases ih h2 with h3 | h3
        · exact Or.inl h3
        · exact Or.inr (List.mem_cons_of_mem _ h3)

theorem wf_increment {m : VCMap} (h : WFvc m) (n : String) :
    WFvc (Increment m n) := by
  constructor
  · rw [Increment, akeys_aset]
    by_cases hm : n ∈ akeys m
    · simpa [hm] using h.1
    · simp only [hm, if_neg, ite_false]
      rw [List.nodup_append]
      exact ⟨h.1, List.nodup_singleton n, by simpa using hm⟩
  · intro p hp
    rcases mem_aset hp with h1 | h1
    · subst h1; simp
    · exact h.2 p h1

theorem getVC_increment_self (m : VCMap) (n : String) :
    getVC (Increment m n) n = getVC m n + 1 := by
  unfold Increment getVC
  rw [alookup_aset_self]
  rfl

theorem getVC_increment_ne (m : VCMap) {n k : String} (h : n ≠ k) :
    getVC (Increment m n) k = getVC m k := by
  unfold Increment getVC
  rw [alookup_aset_ne _ _ h]

/-- Merge of two lookup results: the element-wise maximum where present. -/
def combineOpt : Option Nat → Option Nat → Option Nat
  | none, none => none
  | some v, none => some v
  | none, some w => some w
  | some v, some w => some (max v w)

theorem mergeStep_of_none {a : VCMap} {p : String × Nat}
    (h : alookup a p.1 = none) : mergeStep a p = a ++ [p] := by
  unfold mergeStep
  rw [h]

theorem mergeStep_of_some {a : VCMap} {p : String × Nat} {e : Nat}
    (h : alookup a p.1 = some e) :
    mergeStep a p = if e < p.2 then aset a p.1 p.2 else a := by
  unfold mergeStep
  rw [h]

theorem alookup_mergeStep_ne {a : VCMap} {p : String × Nat} {k : String}
    (h : k ≠ p.1) : alookup (mergeStep a p) k = alookup a k := by
  cases hc : alookup a p.1 with
  | none =>
    rw [mergeStep_of_none hc]
    cases hak : alookup a k with
    | none =>
      rw [alookup_append_right hak]
      show (if p.1 = k then some p.2 else alookup ([] : VCMap) k) = none
      rw [if_neg (Ne.symm h)]
      rfl
    | some v => rw [alookup_append_left hak]
  | some e =>
    rw [mergeStep_of_some hc]
    by_cases he : e < p.2
    · rw [if_pos he, alookup_aset_ne _ _ (Ne.symm h)]
    · rw [if_neg he]

theorem akeys_mergeStep_nodup {a : VCMap} {p : String × Nat}
    (h : (akeys a).Nodup) : (akeys (mergeStep a p)).Nodup := by
  cases hc : alookup a p.1 with
  | none =>
    have hnm : p.1 ∉ akeys a := by
      intro hmem
      have := isSome_alookup_iff.mpr hmem
      rw [hc] at this
      simp at this
    rw [mergeStep_of_none hc]
    simp only [akeys, List.map_append, List.map_cons, List.map_nil]
    rw [List.nodup_append]
    exact ⟨h, List.nodup_singleton _, by simpa [akeys] using hnm⟩
  | some e =>
    rw [mergeStep_of_some hc]
    by_cases he : e < p.2
    · rw [if_pos he, akeys_aset]
      have hmem : p.1 ∈ akeys a := isSome_alookup_iff.mp (by simp [hc])
      simpa [hmem] using h
    · rwa [if_neg he]

/-- Master lemma for `Merge`: the merged map looks up to the element-wise
maximum of the two inputs. -/
theorem alookup_mergeMaps {a b : VCMap} (hna : (akeys a).Nodup)
    (hnb : (akeys b).Nodup) (k : String) :
    alookup (mergeMaps a b) k = combineOpt (alookup a k) (alookup b k) := by
  induction b generalizing a with
  | nil =>
    show alookup a k = combineOpt (alookup a k) none
    cases alookup a k <;> rfl
  | cons p rest ih =>
    have hnb2 := List.nodup_cons.mp
      (show (p.1 :: List.map Prod.fst rest).Nodup from hnb)
    have hrest : (akeys rest).Nodup := hnb2.2
    have hnotin : p.1 ∉ akeys rest := hnb2.1
    have hstep : (akeys (mergeStep a p)).Nodup := akeys_mergeStep_nodup hna
    have hfold : mergeMaps a (p :: rest) = mergeMaps (mergeStep a p) rest := rfl
    rw [hfold, ih hstep hrest]
    by_cases hk : k = p.1
    · subst hk
      have hrnone : alookup rest p.1 = none := alookup_eq_none_of_not_mem hnotin
      have hbk : alookup (p :: rest) p.1 = some p.2 := by
        show (if p.1 = p.1 then some p.2 else alookup rest p.1) = some p.2
        rw [if_pos rfl]
      rw [hrnone, hbk]
      cases hc : alookup a p.1 with
      | none =>
        rw [mergeStep_of_none hc, alookup_append_right hc]
        simp [alookup, combineOpt]
      | some e =>
        rw [mergeStep_of_some hc]
        by_cases he : e < p.2
        · rw [if_pos he, alookup_aset_self]
          simp [combineOpt, Nat.max_eq_right (Nat.le_of_lt he)]
        · rw [if_neg he, hc]
          simp [combineOpt, Nat.max_eq_left (Nat.le_of_not_lt he)]
    · have hzz : alookup (p :: rest) k = alookup rest k := by
        show (if p.1 = k then some p.2 else alookup rest k) = alookup rest k
        rw [if_neg (Ne.symm hk)]
      rw [alookup_mergeStep_ne hk, hzz]

end clock

/-! ## Claim theorems for the vector clock (C2, C6) -/

/-- C2: `Compare` returns `after`/`before`/`concurrent` exactly according to
strict domination of well-formed clocks; `Compare(v, v) = concurrent`;
`Compare(v, Increment(Copy(v))) = before`; `Compare` is antisymmetric; a nil
clock compares before any non-nil clock, and nil against nil is
concurrent(equal). -/
theorem claim_C2_compare_spec :
    (∀ a b : clock.VCMap, clock.WFvc a → clock.WFvc b →
      ((clock.Compare (some a) (some b) = 1 ↔ clock.StrictlyDominates a b)
        ∧ (clock.Compare (some a) (some b) = -1 ↔ clock.StrictlyDominates b a)
        ∧ (clock.Compare (some a) (some b) = 0 ↔
            (¬ clock.StrictlyDominates a b ∧ ¬ clock.StrictlyDominates b a))))
    ∧ (∀ v : clock.VectorClock, clock.Compare v v = 0)
    ∧ (∀ (v : clock.VectorClock) (n : String), clock.WFO v →
        clock.Compare v (some (clock.Increment (clock.Copy v) n)) = -1)
    ∧ (∀ a b : clock.VectorClock, clock.Compare a b = 1 → clock.Compare b a = -1)
    ∧ (∀ m : clock.VCMap, clock.Compare none (some m) = -1)
    ∧ clock.Compare (none : clock.VectorClock) none = 0 := by
  refine ⟨?_, ?_, ?_, ?_, ?_, rfl⟩
  · intro a b ha hb
    exact ⟨clock.compareMaps_eq_one_iff ha hb,
      clock.compareMaps_eq_neg_one_iff ha hb,
      clock.compareMaps_eq_zero_iff ha hb⟩
  · intro v
    cases v with
    | none => rfl
    | some m => exact clock.compareMaps_self m
  · intro v n hv
    cases v with
    | none => rfl
    | some m =>
      have hm : clock.WFvc m := hv
      have hinc : clock.WFvc (clock.Increment m n) := clock.wf_increment hm n
      show clock.compareMaps m (clock.Increment (clock.Copy (some m)) n) = -1
      have hcopy : clock.Copy (some m) = m := rfl
      rw [hcopy]
      rw [clock.compareMaps_eq_neg_one_iff hm hinc]
      constructor
      · intro k
        by_cases hk : n = k
        · subst hk
          rw [clock.getVC_increment_self]
          omega
        · rw [clock.getVC_increment_ne _ hk]
      · refine ⟨n, ?_⟩
        rw [clock.getVC_increment_self]
        omega
  · intro a b h
    cases a with
    | none =>
      cases b with
      | none => simp [clock.Compare] at h
      | some mb => simp [clock.Compare] at h
    | some ma =>
      cases b with
      | none => rfl
      | some mb => exact clock.compareMaps_antisymm h
  · intro m
    rfl

/-- Witness for C2 at concrete clocks: `{a:2}` strictly dominates `{a:1}`. -/
theorem claim_C2_compare_spec_witness :
    clock.WFvc [("a", 2)] ∧ clock.StrictlyDominates [("a", 2)] [("a", 1)] :=
  ⟨by decide,
    ((claim_C2_compare_spec.1 [("a", 2)] [("a", 1)] (by decide) (by decide)).1).mp
      (by decide)⟩

/-- C6: `Merge` holds, for every key of either input, the maximum of the two
counters (missing entries read as 0); the result dominates both inputs;
`Merge` is commutative and idempotent as a map. -/
theorem claim_C6_merge_spec :
    ∀ a b : clock.VectorClock, clock.NodupO a → clock.NodupO b →
      ((∀ k, (k ∈ clock.keysO a ∨ k ∈ clock.keysO b) →
          clock.lookupO (clock.Merge a b) k =
            some (max (clock.getO a k) (clock.getO b k)))
        ∧ (∀ k, clock.getO a k ≤ clock.getO (clock.Merge a b) k
            ∧ clock.getO b k ≤ clock.getO (clock.Merge a b) k)
        ∧ (∀ k, clock.lookupO (clock.Merge a b) k = clock.lookupO (clock.Merge b a) k)
        ∧ (∀ k, clock.lookupO (clock.Merge a a) k = clock.lookupO a k)) := by
  intro a b hna hnb
  have hmain : ∀ (x y : clock.VCMap), (akeys x).Nodup → (akeys y).Nodup →
      ∀ k, alookup (clock.mergeMaps x y) k =
        clock.combineOpt (alookup x k) (alookup y k) :=
    fun x y hx hy k => clock.alookup_mergeMaps hx hy k
  refine ⟨?_, ?_, ?_, ?_⟩
  · intro k hk
    cases a with
    | none =>
      cases b with
      | none => simp [clock.keysO] at hk
      | some mb =>
        have hkb : k ∈ akeys mb := by
          rcases hk with h | h
          · simp [clock.keysO] at h
          · exact h
        obtain ⟨v, hv⟩ := Option.isSome_iff_exists.mp (isSome_alookup_iff.mpr hkb)
        show alookup mb k = some (max (clock.getO none k) (clock.getO (some mb) k))
        simp [clock.getO, clock.lookupO, hv]
    | some ma =>
      cases b with
      | none =>
        have hka : k ∈ akeys ma := by
          rcases hk with h | h
          · exact h
          · simp [clock.keysO] at h
        obtain ⟨v, hv⟩ := Option.isSome_iff_exists.mp (isSome_alookup_iff.mpr hka)
        show alookup ma k = some (max (clock.getO (some ma) k) (clock.getO none k))
        simp [clock.getO, clock.lookupO, hv]
      | some mb =>
        show alookup (clock.mergeMaps ma mb) k = _
        rw [hmain ma mb hna hnb k]
        have : ¬ (alookup ma k = none ∧ alookup mb k = none) := by
          rintro ⟨h1, h2⟩
          rcases hk with h | h
          · have := isSome_alookup_iff.mpr h
            rw [h1] at this
            simp at this
          · have := isSome_alookup_iff.mpr h
            rw [h2] at this
            simp at this
        cases h1 : alookup ma k with
        | none =>
          cases h2 : alookup mb k with
          | none => exact absurd ⟨h1, h2⟩ this
          | some w => simp [clock.combineOpt, clock.getO, clock.lookupO, h1, h2]
        | some v =>
          cases h2 : alookup mb k with
          | none => simp [clock.combineOpt, clock.getO, clock.lookupO, h1, h2]
          | some w => simp [clock.combineOpt, clock.getO, clock.lookupO, h1, h2]
  · intro k
    cases a with
    | none =>
      cases b with
      | none => simp [clock.Merge, clock.getO, clock.lookupO, clock.New, alookup]
      | some mb => simp [clock.Merge, clock.getO, clock.lookupO]
    | some ma =>
      cases b with
      | none => simp [clock.Merge, clock.getO, clock.lookupO]
      | some mb =>
        show clock.getO (some ma) k ≤ clock.getO (some (clock.mergeMaps ma mb)) k
          ∧ clock.getO (some mb) k ≤ clock.getO (some (clock.mergeMaps ma mb)) k
        simp only [clock.getO, clock.lookupO]
        rw [hmain ma mb hna hnb k]
        cases h1 : alookup ma k <;> cases h2 : alookup mb k <;>
          simp only [clock.combineOpt, Option.getD_some, Option.getD_none] <;>
            omega
  · intro k
    cases a with
    | none =>
      cases b with
      | none => rfl
      | some mb => rfl
    | some ma =>
      cases b with
      | none => rfl
      | some mb =>
        show alookup (clock.mergeMaps ma mb) k = alookup (clock.mergeMaps mb ma) k
        rw [hmain ma mb hna hnb k, hmain mb ma hnb hna k]
        cases h1 : alookup ma k <;> cases h2 : alookup mb k <;>
          simp [clock.combineOpt, Nat.max_comm]
  · intro k
    cases a with
    | none =>
      show alookup clock.New k = none
      rfl
    | some ma =>
      show alookup (clock.mergeMaps ma ma) k = alookup ma k
      rw [hmain ma ma hna hna k]
      cases h1 : alookup ma k <;> simp [clock.combineOpt]

/-- Witness for C6 at concrete clocks. -/
theorem claim_C6_merge_spec_witness :
    clock.NodupO (some [("x", 1), ("y", 2)])
      ∧ clock.lookupO
          (clock.Merge (some [("x", 1), ("y", 2)]) (some [("y", 3)])) "y" =
        some 3 := by
  refine ⟨by decide, ?_⟩
  have h := (claim_C6_merge_spec (some [("x", 1), ("y", 2)]) (some [("y", 3)])
    (by decide) (by decide)).1 "y" (Or.inr (by decide))
  rw [h]
  decide

/-! ## The `ring` package: consistent hashing (src ring.go)

The source hashes vnode ids and keys with MD5 truncated to 8 bytes.  Every
property claimed about the ring holds for an arbitrary hash function, so the
hash is an explicit parameter `hashFn : String → Nat` of the operations that
use it. -/

namespace ring

/-- A virtual node: id string, owning physical node, ring position. -/
structure VNode where
  id : String
  nodeID : String
  hash : Nat
deriving DecidableEq

/-- Ordering of vnodes by ring position, as used by the `sort.Slice` call. -/
def vleq (v w : VNode) : Prop := v.hash ≤ w.hash

instance : DecidableRel vleq := fun v w =>
  inferInstanceAs (Decidable (v.hash ≤ w.hash))

instance : IsTotal VNode vleq := ⟨fun v w => Nat.le_total v.hash w.hash⟩

instance : IsTrans VNode vleq := ⟨fun _ _ _ h1 h2 => Nat.le_trans h1 h2⟩

/-- Strict ordering by position, used to compare sorted vnode sequences. -/
def vlt (v w : VNode) : Prop := v.hash < w.hash

instance : IsAntisymm VNode vlt :=
  ⟨fun _ _ h1 h2 => absurd (Nat.lt_trans h1 h2) (Nat.lt_irrefl _)⟩

/-- The ring: sorted vnode sequence, node map (nodeID → address), vnodes per
physical node, and the (unused) size of the hash space. -/
structure Ring where
  vnodes : List VNode
  nodes : List (String × String)
  vnodeCount : Nat
  ringSize : Nat
deriving DecidableEq

/-- `New(vnodeCount)`: non-positive counts default to 100. -/
def Ring.new (vnodeCount : Int) : Ring :=
  { vnodes := []
    nodes := []
    vnodeCount := if vnodeCount ≤ 0 then 100 else vnodeCount.toNat
    ringSize := 2 ^ 64 - 1 }

/-- The vnodes generated for one physical node by the loop of `AddNode`:
ids `"<nodeID>-vnode-<i>"` for `i < vnodeCount`, each hashed to a position. -/
def genVNodes (hashFn : String → Nat) (vnodeCount : Nat) (nodeID : String) :
    List VNode :=
  (List.range vnodeCount).map fun i =>
    let vnodeID := nodeID ++ "-vnode-" ++ toString i
    { id := vnodeID, nodeID := nodeID, hash := hashFn vnodeID }

/-- `AddNode(nodeID, address)`: error on an existing node, otherwise record
the address, append the generated vnodes and re-sort by position. -/
def Ring.addNode (hashFn : String → Nat) (r : Ring) (nodeID address : String) :
    Except String Ring :=
  if (alookup r.nodes nodeID).isSome then
    .error ("node " ++ nodeID ++ " already exists")
  else
    .ok { r with
      nodes := r.nodes ++ [(nodeID, address)]
      vnodes := List.insertionSort vleq
        (r.vnodes ++ genVNodes hashFn r.vnodeCount nodeID) }

/-- `RemoveNode(nodeID)`: error on a missing node, otherwise drop all vnodes
owned by the node and its map entry. -/
def Ring.removeNode (r : Ring) (nodeID : String) : Except String Ring :=
  if (alookup r.nodes nodeID).isSome then
    .ok { r with
      vnodes := r.vnodes.filter fun v => decide (v.nodeID ≠ nodeID)
      nodes := r.nodes.filter fun p => decide (p.1 ≠ nodeID) }
  else
    .error ("node " ++ nodeID ++ " does not exist")

/-- The loop of Go's `sort.Search`, with an explicit fuel bound on the number
of iterations; the interval halves each step, so fuel `n` is enough for any
search over `[0, n)`. -/
def searchLoop (f : Nat → Bool) : Nat → Nat → Nat → Nat
  | 0, i, _ => i
  | fuel + 1, i, j =>
    if i < j then
      let h := (i + j) / 2
      if f h then searchLoop f fuel i h else searchLoop f fuel (h + 1) j
    else i

/-- Go `sort.Search(n, f)`: binary search for the smallest index in `[0, n]`
at which `f` is true (`f` monotone). -/
def sortSearch (n : Nat) (f : Nat → Bool) : Nat :=
  searchLoop f n 0 n

/-- The zero `VNode`, standing in for Go's in-bounds slice indexing. -/
def defaultVNode : VNode := { id := "", nodeID := "", hash := 0 }

/-- `findSuccessorIndex(hash)`: binary search for the first vnode with
position ≥ `hash`, wrapping around to index 0. -/
def Ring.findSuccessorIndex (r : Ring) (hash : Nat) : Nat :=
  let idx := sortSearch r.vnodes.length fun i =>
    decide (hash ≤ (r.vnodes.getD i defaultVNode).hash)
  if idx = r.vnodes.length then 0 else idx

/-- Body of the clockwise collection loop of `GetPreferenceList`: stop once
`n` distinct node ids are collected, skip ids already seen (the `seen` set is
exactly membership in the accumulator, since they grow together). -/
def collectStep (vnodes : List VNode) (startIdx n : Nat)
    (acc : List String) (i : Nat) : List String :=
  if acc.length < n then
    let vnode := vnodes.getD ((startIdx + i) % vnodes.length) defaultVNode
    if vnode.nodeID ∈ acc then acc else acc ++ [vnode.nodeID]
  else acc

/-- The clamp of `N` in `GetPreferenceList`: `if N <= 0 || N > len(r.nodes)`
then the node count. -/
def clampN (n : Int) (nodeCount : Nat) : Nat :=
  if n ≤ 0 ∨ (nodeCount : Int) < n then nodeCount else n.toNat

/-- `GetPreferenceList(key, N)`: error on an empty vnode sequence; clamp `N`
to the physical node count when non-positive or too large; walk clockwise
from the key's successor collecting distinct node ids. -/
def Ring.getPreferenceList (hashFn : String → Nat) (r : Ring) (key : String)
    (n : Int) : Except String (List String) :=
  if r.vnodes.length = 0 then
    .error "no nodes in ring"
  else
    .ok ((List.range r.vnodes.length).foldl
      (collectStep r.vnodes (r.findSuccessorIndex (hashFn key))
        (clampN n r.nodes.length)) [])

/-- `GetNodeAddress(nodeID)`: the address and existence flag, as an option. -/
def Ring.getNodeAddress (r : Ring) (nodeID : String) : Option String :=
  alookup r.nodes nodeID

/-- `Size()`: number of physical nodes. -/
def Ring.size (r : Ring) : Nat := r.nodes.length

/-- A membership operation on the ring. -/
inductive RingOp where
  | add (nodeID address : String)
  | remove (nodeID : String)

/-- Apply one operation; on error the ring is unchanged (the Go methods
return early without mutating). -/
def applyOp (hashFn : String → Nat) (r : Ring) : RingOp → Ring
  | .add n a =>
    match r.addNode hashFn n a with
    | .ok r2 => r2
    | .error _ => r
  | .remove n =>
    match r.removeNode n with
    | .ok r2 => r2
    | .error _ => r

/-- Apply a sequence of membership operations. -/
def applyOps (hashFn : String → Nat) (r : Ring) (ops : List RingOp) : Ring :=
  ops.foldl (applyOp hashFn) r

/-- A ring built by adding a list of (nodeID, address) pairs to a fresh
ring. -/
def buildRing (hashFn : String → Nat) (vc : Int)
    (l : List (String × String)) : Ring :=
  applyOps hashFn (Ring.new vc) (l.map fun p => RingOp.add p.1 p.2)

/-- The ring invariant: vnodes sorted by position, every vnode's owner in the
node map, every node owning at least one vnode, distinct node keys, and at
least one vnode generated per node. -/
def RingWF (r : Ring) : Prop :=
  List.Sorted vleq r.vnodes
    ∧ (∀ v ∈ r.vnodes, (alookup r.nodes v.nodeID).isSome = true)
    ∧ (∀ p ∈ r.nodes, ∃ v ∈ r.vnodes, v.nodeID = p.1)
    ∧ (akeys r.nodes).Nodup
    ∧ 1 ≤ r.vnodeCount

instance (r : Ring) : Decidable (RingWF r) := by
  unfold RingWF
  infer_instance

theorem getD_mem {α : Type} :
    ∀ (l : List α) (i : Nat) (d : α), i < l.length → l.getD i d ∈ l
  | [], _, _, h => absurd h (by simp)
  | a :: t, 0, _, _ => List.mem_cons_self a t
  | a :: t, i + 1, d, h =>
    List.mem_cons_of_mem a (getD_mem t i d (by simpa using h))

theorem collect_nodup (vnodes : List VNode) (s n : Nat) :
    ∀ (L : List Nat) (acc : List String), acc.Nodup →
      (L.foldl (collectStep vnodes s n) acc).Nodup := by
  intro L
  induction L with
  | nil => exact fun acc h => h
  | cons i L ih =>
    intro acc hacc
    apply ih
    unfold collectStep
    by_cases hlen : acc.length < n
    · rw [if_pos hlen]
      by_cases hmem : (vnodes.getD ((s + i) % vnodes.length) defaultVNode).nodeID ∈ acc
      · rwa [if_pos hmem]
      · rw [if_neg hmem]
        rw [List.nodup_append]
        exact ⟨hacc, List.nodup_singleton _, by simpa using hmem⟩
    · rwa [if_neg hlen]

theorem collect_mem (vnodes : List VNode) (s n : Nat)
    (hpos : 0 < vnodes.length) :
    ∀ (L : List Nat) (acc : List String) (x : String),
      x ∈ L.foldl (collectStep vnodes s n) acc →
      x ∈ acc ∨ ∃ v ∈ vnodes, v.nodeID = x := by
  intro L
  induction L with
  | nil => exact fun acc x h => Or.inl h
  | cons i L ih =>
    intro acc x h
    rcases ih _ x h with h2 | h2
    · unfold collectStep at h2
      by_cases hlen : acc.length < n
      · rw [if_pos hlen] at h2
        by_cases hmem : (vnodes.getD ((s + i) % vnodes.length) defaultVNode).nodeID ∈ acc
        · rw [if_pos hmem] at h2
          exact Or.inl h2
        · rw [if_neg hmem] at h2
          rcases List.mem_append.mp h2 with h3 | h3
          · exact Or.inl h3
          · right
            refine ⟨vnodes.getD ((s + i) % vnodes.length) defaultVNode,
              getD_mem _ _ _ (Nat.mod_lt _ hpos), ?_⟩
            cases List.mem_singleton.mp h3
            rfl
      · rw [if_neg hlen] at h2
        exact Or.inl h2
    · exact Or.inr h2

theorem collect_len (vnodes : List VNode) (s n : Nat) :
    ∀ (L : List Nat) (acc : List String),
      (L.foldl (collectStep vnodes s n) acc).length ≤ max acc.length n := by
  intro L
  induction L with
  | nil => exact fun acc => Nat.le_max_left _ _
  | cons i L ih =>
    intro acc
    have h1 := ih (collectStep vnodes s n acc i)
    have h2 : (collectStep vnodes s n acc i).length ≤ max acc.length n := by
      unfold collectStep
      by_cases hlen : acc.length < n
      · rw [if_pos hlen]
        by_cases hmem : (vnodes.getD ((s + i) % vnodes.length) defaultVNode).nodeID ∈ acc
        · rw [if_pos hmem]; omega
        · rw [if_neg hmem]
          simp only [List.length_append, List.length_singleton]
          omega
      · rw [if_neg hlen]; omega
    calc (L.foldl (collectStep vnodes s n) (collectStep vnodes s n acc i)).length
        ≤ max (collectStep vnodes s n acc i).length n := h1
      _ ≤ max acc.length n := by omega

theorem getPreferenceList_eq_ok {hashFn : String → Nat} {r : Ring}
    {key : String} {n : Int} {l : List String}
    (h : r.getPreferenceList hashFn key n = .ok l) :
    0 < r.vnodes.length ∧
      l = (List.range r.vnodes.length).foldl
        (collectStep r.vnodes (r.findSuccessorIndex (hashFn key))
          (clampN n r.nodes.length)) [] := by
  unfold Ring.getPreferenceList at h
  by_cases hlen : r.vnodes.length = 0
  · rw [if_pos hlen] at h
    exact absurd h (by simp)
  · rw [if_neg hlen] at h
    have := Except.ok.inj h
    exact ⟨Nat.pos_of_ne_zero hlen, this.symm⟩

theorem getPreferenceList_congr {hashFn : String → Nat} {r1 r2 : Ring}
    (key : String) (n : Int) (h1 : r1.vnodes = r2.vnodes)
    (h2 : r1.nodes.length = r2.nodes.length) :
    r1.getPreferenceList hashFn key n = r2.getPreferenceList hashFn key n := by
  unfold Ring.getPreferenceList Ring.findSuccessorIndex
  rw [h1, h2]

theorem genVNodes_nodeID {hashFn : String → Nat} {c : Nat} {nid : String}
    {v : VNode} (h : v ∈ genVNodes hashFn c nid) : v.nodeID = nid := by
  unfold genVNodes at h
  obtain ⟨i, _, rfl⟩ := List.mem_map.mp h
  rfl

theorem genVNodes_mem_self (hashFn : String → Nat) {c : Nat} (nid : String)
    (h : 1 ≤ c) : ∃ v ∈ genVNodes hashFn c nid, v.nodeID = nid := by
  refine ⟨{ id := nid ++ "-vnode-" ++ toString 0, nodeID := nid
            hash := hashFn (nid ++ "-vnode-" ++ toString 0) }, ?_, rfl⟩
  unfold genVNodes
  exact List.mem_map.mpr ⟨0, List.mem_range.mpr h, rfl⟩

theorem alookup_filter_ne {β : Type} {l : List (String × β)} {x k : String}
    (h : k ≠ x) :
    alookup (l.filter fun p => decide (p.1 ≠ x)) k = alookup l k := by
  induction l with
  | nil => rfl
  | cons q t ih =>
    rw [List.filter_cons]
    by_cases hq : q.1 = x
    · rw [if_neg (by simp [hq])]
      rw [ih]
      show alookup t k = if q.1 = k then some q.2 else alookup t k
      rw [if_neg (by rw [hq]; exact Ne.symm h)]
    · rw [if_pos (by simpa using hq)]
      show (if q.1 = k then some q.2 else alookup (t.filter fun p => decide (p.1 ≠ x)) k)
        = if q.1 = k then some q.2 else alookup t k
      by_cases hk : q.1 = k
      · rw [if_pos hk, if_pos hk]
      · rw [if_neg hk, if_neg hk, ih]

theorem alookup_filter_self {β : Type} {l : List (String × β)} {x : String} :
    alookup (l.filter fun p => decide (p.1 ≠ x)) x = none := by
  induction l with
  | nil => rfl
  | cons q t ih =>
    rw [List.filter_cons]
    by_cases hq : q.1 = x
    · rw [if_neg (by simp [hq])]
      exact ih
    · rw [if_pos (by simpa using hq)]
      show (if q.1 = x then some q.2 else alookup (t.filter fun p => decide (p.1 ≠ x)) x) = none
      rw [if_neg hq]
      exact ih

theorem akeys_filter_nodup {β : Type} {l : List (String × β)}
    (h : (akeys l).Nodup) (p : String × β → Bool) :
    (akeys (l.filter p)).Nodup := by
  have hs : List.Sublist (l.filter p) l := List.filter_sublist l
  exact List.Nodup.sublist (List.Sublist.map Prod.fst hs) h

theorem wf_new (vc : Int) : RingWF (Ring.new vc) := by
  refine ⟨List.sorted_nil, by simp [Ring.new], by simp [Ring.new],
    by simp [Ring.new, akeys], ?_⟩
  unfold Ring.new
  by_cases h : vc ≤ 0
  · simp [h]
  · simp only [h, if_false]
    omega

theorem addNode_ok {hashFn : String → Nat} {r : Ring} {nid addr : String}
    {r2 : Ring} (h : r.addNode hashFn nid addr = .ok r2) :
    alookup r.nodes nid = none
      ∧ r2.nodes = r.nodes ++ [(nid, addr)]
      ∧ r2.vnodes = List.insertionSort vleq
          (r.vnodes ++ genVNodes hashFn r.vnodeCount nid)
      ∧ r2.vnodeCount = r.vnodeCount := by
  unfold Ring.addNode at h
  by_cases hex : (alookup r.nodes nid).isSome
  · rw [if_pos hex] at h
    exact absurd h (by simp)
  · rw [if_neg hex] at h
    have h2 := Except.ok.inj h
    refine ⟨Option.not_isSome_iff_eq_none.mp hex, ?_, ?_, ?_⟩ <;> rw [← h2]

theorem removeNode_ok {r : Ring} {nid : String} {r2 : Ring}
    (h : r.removeNode nid = .ok r2) :
    (alookup r.nodes nid).isSome = true
      ∧ r2.nodes = r.nodes.filter (fun p => decide (p.1 ≠ nid))
      ∧ r2.vnodes = r.vnodes.filter (fun v => decide (v.nodeID ≠ nid))
      ∧ r2.vnodeCount = r.vnodeCount := by
  unfold Ring.removeNode at h
  by_cases hex : (alookup r.nodes nid).isSome
  · rw [if_pos hex] at h
    have h2 := Except.ok.inj h
    refine ⟨hex, ?_, ?_, ?_⟩ <;> rw [← h2]
  · rw [if_neg hex] at h
    exact absurd h (by simp)

theorem wf_addNode {hashFn : String → Nat} {r : Ring} {nid addr : String}
    {r2 : Ring} (hwf : RingWF r) (h : r.addNode hashFn nid addr = .ok r2) :
    RingWF r2 := by
  obtain ⟨hfresh, hn, hv, hc⟩ := addNode_ok h
  obtain ⟨hs, hown, hhas, hnd, hcnt⟩ := hwf
  refine ⟨?_, ?_, ?_, ?_, ?_⟩
  · rw [hv]
    exact List.sorted_insertionSort vleq _
  · intro v hvm
    rw [hv, List.mem_insertionSort] at hvm
    rw [hn]
    rcases List.mem_append.mp hvm with h1 | h1
    · obtain ⟨w, hw⟩ := Option.isSome_iff_exists.mp (hown v h1)
      simp [alookup_append_left hw]
    · have hid := genVNodes_nodeID h1
      rw [hid, alookup_append_right hfresh]
      show (alookup [(nid, addr)] nid).isSome = true
      simp [alookup]
  · intro p hp
    rw [hn] at hp
    rcases List.mem_append.mp hp with h1 | h1
    · obtain ⟨v, hv1, hv2⟩ := hhas p h1
      refine ⟨v, ?_, hv2⟩
      rw [hv]
      exact (List.mem_insertionSort vleq).mpr (List.mem_append.mpr (Or.inl hv1))
    · have hpe : p = (nid, addr) := List.mem_singleton.mp h1
      subst hpe
      obtain ⟨v, hv1, hv2⟩ := genVNodes_mem_self hashFn nid hcnt
      refine ⟨v, ?_, hv2⟩
      rw [hv]
      exact (List.mem_insertionSort vleq).mpr (List.mem_append.mpr (Or.inr hv1))
  · rw [hn]
    have hk : akeys (r.nodes ++ [(nid, addr)]) = akeys r.nodes ++ [nid] := by
      simp [akeys]
    rw [hk, List.nodup_append]
    refine ⟨hnd, List.nodup_singleton _, ?_⟩
    intro a ha hb
    have : a = nid := List.mem_singleton.mp hb
    subst this
    have := isSome_alookup_iff.mpr ha
    rw [hfresh] at this
    simp at this
  · rw [hc]
    exact hcnt

theorem wf_removeNode {r : Ring} {nid : String} {r2 : Ring}
    (hwf : RingWF r) (h : r.removeNode nid = .ok r2) : RingWF r2 := by
  obtain ⟨_, hn, hv, hc⟩ := removeNode_ok h
  obtain ⟨hs, hown, hhas, hnd, hcnt⟩ := hwf
  refine ⟨?_, ?_, ?_, ?_, ?_⟩
  · rw [hv]
    exact List.Sorted.filter _ hs
  · intro v hvm
    rw [hv] at hvm
    obtain ⟨h1, h2⟩ := List.mem_filter.mp hvm
    have hne : v.nodeID ≠ nid := by simpa using h2
    rw [hn, alookup_filter_ne hne]
    exact hown v h1
  · intro p hp
    rw [hn] at hp
    obtain ⟨h1, h2⟩ := List.mem_filter.mp hp
    have hne : p.1 ≠ nid := by simpa using h2
    obtain ⟨v, hv1, hv2⟩ := hhas p h1
    refine ⟨v, ?_, hv2⟩
    rw [hv]
    exact List.mem_filter.mpr ⟨hv1, by simp [hv2, hne]⟩
  · rw [hn]
    exact akeys_filter_nodup hnd _
  · rw [hc]
    exact hcnt

theorem wf_applyOp {hashFn : String → Nat} {r : Ring} (op : RingOp)
    (hwf : RingWF r) : RingWF (applyOp hashFn r op) := by
  cases op with
  | add n a =>
    simp only [applyOp]
    cases h : r.addNode hashFn n a with
    | ok r2 => exact wf_addNode hwf h
    | error e => exact hwf
  | remove n =>
    simp only [applyOp]
    cases h : r.removeNode n with
    | ok r2 => exact wf_removeNode hwf h
    | error e => exact hwf

theorem wf_applyOps {hashFn : String → Nat} (ops : List RingOp) :
    ∀ {r : Ring}, RingWF r → RingWF (applyOps hashFn r ops) := by
  induction ops with
  | nil => exact fun hwf => hwf
  | cons op rest ih =>
    intro r hwf
    exact ih (wf_applyOp op hwf)

theorem pairwise_and {α : Type} {R S : α → α → Prop} {l : List α}
    (h1 : l.Pairwise R) (h2 : l.Pairwise S) :
    l.Pairwise fun a b => R a b ∧ S a b := by
  induction h1 with
  | nil => exact List.Pairwise.nil
  | @cons a t ha ht ih =>
    rcases List.pairwise_cons.mp h2 with ⟨ha2, ht2⟩
    exact List.pairwise_cons.mpr ⟨fun b hb => ⟨ha b hb, ha2 b hb⟩, ih ht2⟩

/-- Two sorted vnode sequences with pairwise-distinct positions that are
permutations of each other are equal. -/
theorem sorted_perm_nodup_eq {l1 l2 : List VNode} (hp : l1.Perm l2)
    (hs1 : List.Sorted vleq l1) (hs2 : List.Sorted vleq l2)
    (hn : (l1.map VNode.hash).Nodup) : l1 = l2 := by
  have hn2 : (l2.map VNode.hash).Nodup := (hp.map VNode.hash).nodup_iff.mp hn
  have hlt1 : List.Sorted vlt l1 :=
    (pairwise_and hs1 (List.pairwise_map.mp hn)).imp
      fun h => Nat.lt_of_le_of_ne h.1 h.2
  have hlt2 : List.Sorted vlt l2 :=
    (pairwise_and hs2 (List.pairwise_map.mp hn2)).imp
      fun h => Nat.lt_of_le_of_ne h.1 h.2
  exact List.eq_of_perm_of_sorted hp hlt1 hlt2

/-- Folding `AddNode` over fresh, distinct node ids: the node map extends by
the list, and the vnode sequence is a permutation of the old one plus all
generated vnodes. -/
theorem applyAdds_spec (hashFn : String → Nat) :
    ∀ (l : List (String × String)) (r : Ring), (akeys l).Nodup →
      (∀ p ∈ l, alookup r.nodes p.1 = none) →
      (applyOps hashFn r (l.map fun p => RingOp.add p.1 p.2)).nodes
          = r.nodes ++ l
        ∧ (applyOps hashFn r (l.map fun p => RingOp.add p.1 p.2)).vnodes.Perm
            (r.vnodes ++ l.flatMap fun q => genVNodes hashFn r.vnodeCount q.1)
        ∧ (applyOps hashFn r (l.map fun p => RingOp.add p.1 p.2)).vnodeCount
          = r.vnodeCount := by
  intro l
  induction l with
  | nil =>
    intro r _ _
    exact ⟨by simp [applyOps], by simp [applyOps], rfl⟩
  | cons p t ih =>
    intro r hnd hfresh
    have hfp : alookup r.nodes p.1 = none := hfresh p (List.mem_cons_self _ _)
    have hnd2 := List.nodup_cons.mp
      (show (p.1 :: List.map Prod.fst t).Nodup from hnd)
    have hstep : applyOp hashFn r (RingOp.add p.1 p.2) =
        { r with
          nodes := r.nodes ++ [(p.1, p.2)]
          vnodes := List.insertionSort vleq
            (r.vnodes ++ genVNodes hashFn r.vnodeCount p.1) } := by
      simp only [applyOp, Ring.addNode]
      rw [if_neg (by simp [hfp])]
    have hfold : applyOps hashFn r ((p :: t).map fun q => RingOp.add q.1 q.2)
        = applyOps hashFn (applyOp hashFn r (RingOp.add p.1 p.2))
            (t.map fun q => RingOp.add q.1 q.2) := rfl
    have hfresh2 : ∀ q ∈ t,
        alookup (applyOp hashFn r (RingOp.add p.1 p.2)).nodes q.1 = none := by
      intro q hq
      rw [hstep]
      show alookup (r.nodes ++ [(p.1, p.2)]) q.1 = none
      rw [alookup_append_right (hfresh q (List.mem_cons_of_mem _ hq))]
      have hqe : p.1 ≠ q.1 := by
        intro he
        exact hnd2.1 (he ▸ List.mem_map.mpr ⟨q, hq, rfl⟩)
      show (if p.1 = q.1 then some p.2 else alookup ([] : List (String × String)) q.1) = none
      rw [if_neg hqe]
      rfl
    obtain ⟨ihn, ihv, ihc⟩ := ih (applyOp hashFn r (RingOp.add p.1 p.2))
      hnd2.2 hfresh2
    have hcnt : (applyOp hashFn r (RingOp.add p.1 p.2)).vnodeCount
        = r.vnodeCount := by rw [hstep]
    refine ⟨?_, ?_, ?_⟩
    · rw [hfold, ihn, hstep]
      show (r.nodes ++ [(p.1, p.2)]) ++ t = r.nodes ++ p :: t
      rw [List.append_assoc, List.singleton_append, Prod.mk.eta]
    · rw [hfold]
      refine ihv.trans ?_
      rw [hstep]
      show (List.insertionSort vleq
          (r.vnodes ++ genVNodes hashFn r.vnodeCount p.1)
          ++ t.flatMap fun q => genVNodes hashFn r.vnodeCount q.1).Perm
        (r.vnodes ++ (p :: t).flatMap fun q => genVNodes hashFn r.vnodeCount q.1)
      refine ((List.perm_insertionSort vleq _).append_right _).trans ?_
      have hfm : (p :: t).flatMap (fun q => genVNodes hashFn r.vnodeCount q.1)
          = genVNodes hashFn r.vnodeCount p.1
            ++ t.flatMap fun q => genVNodes hashFn r.vnodeCount q.1 := by
        simp [List.flatMap_cons]
      rw [hfm, List.append_assoc]
    · rw [hfold, ihc, hcnt]

/-- Rings built from permuted membership lists have identical preference
lists, provided the generated vnode positions are pairwise distinct. -/
theorem buildRing_perm_pref {hashFn : String → Nat} {vc : Int}
    (key : String) (n : Int) {l l2 : List (String × String)}
    (hp : l.Perm l2) (hnd : (akeys l).Nodup)
    (hh : ((l.flatMap fun q =>
        genVNodes hashFn (Ring.new vc).vnodeCount q.1).map VNode.hash).Nodup) :
    (buildRing hashFn vc l).getPreferenceList hashFn key n
      = (buildRing hashFn vc l2).getPreferenceList hashFn key n := by
  have hnd2 : (akeys l2).Nodup := (hp.map Prod.fst).nodup_iff.mp hnd
  obtain ⟨hn1, hv1, _⟩ := applyAdds_spec hashFn l (Ring.new vc) hnd
    (fun p _ => rfl)
  obtain ⟨hn2, hv2, _⟩ := applyAdds_spec hashFn l2 (Ring.new vc) hnd2
    (fun p _ => rfl)
  have hnew : (Ring.new vc).vnodes = ([] : List VNode) := rfl
  rw [hnew, List.nil_append] at hv1 hv2
  have hw1 : RingWF (buildRing hashFn vc l) := wf_applyOps _ (wf_new vc)
  have hw2 : RingWF (buildRing hashFn vc l2) := wf_applyOps _ (wf_new vc)
  have hv1' : (buildRing hashFn vc l).vnodes.Perm
      (l.flatMap fun q => genVNodes hashFn (Ring.new vc).vnodeCount q.1) := hv1
  have hv2' : (buildRing hashFn vc l2).vnodes.Perm
      (l.flatMap fun q => genVNodes hashFn (Ring.new vc).vnodeCount q.1) :=
    hv2.trans (hp.flatMap_right _).symm
  have hperm : (buildRing hashFn vc l).vnodes.Perm
      (buildRing hashFn vc l2).vnodes := hv1'.trans hv2'.symm
  have hnodup : ((buildRing hashFn vc l).vnodes.map VNode.hash).Nodup :=
    ((hv1'.map VNode.hash).nodup_iff).mpr hh
  have heq : (buildRing hashFn vc l).vnodes = (buildRing hashFn vc l2).vnodes :=
    sorted_perm_nodup_eq hperm hw1.1 hw2.1 hnodup
  have hb1 : (buildRing hashFn vc l).nodes = (Ring.new vc).nodes ++ l := hn1
  have hb2 : (buildRing hashFn vc l2).nodes = (Ring.new vc).nodes ++ l2 := hn2
  have hlen : (buildRing hashFn vc l).nodes.length
      = (buildRing hashFn vc l2).nodes.length := by
    rw [hb1, hb2]
    simpa using hp.length_eq
  exact getPreferenceList_congr key n heq hlen

theorem clampN_le (n : Int) (c : Nat) : clampN n c ≤ c := by
  unfold clampN
  by_cases h : n ≤ 0 ∨ (c : Int) < n
  · rw [if_pos h]
  · rw [if_neg h]
    push_neg at h
    omega

theorem clampN_le_of_pos {n : Int} (c : Nat) (h : 0 < n) :
    (clampN n c : Int) ≤ n := by
  unfold clampN
  by_cases h2 : n ≤ 0 ∨ (c : Int) < n
  · rw [if_pos h2]
    rcases h2 with h2 | h2 <;> omega
  · rw [if_neg h2]
    push_neg at h2
    omega

end ring

/-! ## Claim theorems for the ring (C1, C7) -/

/-- C1: on every well-formed non-empty ring, `GetPreferenceList(key, n)`
succeeds with a duplicate-free list of at most `clampN n` (hence at most the
node count, and at most `n` when `n` is positive) node ids, all present in
the node map; and the result is determined by the ring membership alone:
adding the same nodes in any order yields the same ordered list (for any
hash function whose generated vnode positions are distinct). -/
theorem claim_C1_preference_list :
    (∀ (hashFn : String → Nat) (r : ring.Ring) (key : String) (n : Int),
      ring.RingWF r → r.nodes ≠ [] →
      ∃ l, r.getPreferenceList hashFn key n = .ok l
        ∧ l.Nodup
        ∧ l.length ≤ ring.clampN n r.nodes.length
        ∧ l.length ≤ r.nodes.length
        ∧ (0 < n → (l.length : Int) ≤ n)
        ∧ (∀ x ∈ l, (alookup r.nodes x).isSome = true))
    ∧ (∀ (hashFn : String → Nat) (vc : Int) (key : String) (n : Int)
        (l l2 : List (String × String)), l.Perm l2 → (akeys l).Nodup →
        ((l.flatMap fun q =>
            ring.genVNodes hashFn (ring.Ring.new vc).vnodeCount q.1).map
          ring.VNode.hash).Nodup →
        (ring.buildRing hashFn vc l).getPreferenceList hashFn key n
          = (ring.buildRing hashFn vc l2).getPreferenceList hashFn key n) := by
  constructor
  · intro hashFn r key n hwf hne
    obtain ⟨hs, hown, hhas, hnd, hcnt⟩ := hwf
    have hvne : 0 < r.vnodes.length := by
      obtain ⟨p, hp⟩ := List.exists_mem_of_ne_nil r.nodes hne
      obtain ⟨v, hv1, _⟩ := hhas p hp
      exact List.length_pos.mpr (List.ne_nil_of_mem hv1)
    refine ⟨(List.range r.vnodes.length).foldl
        (ring.collectStep r.vnodes (r.findSuccessorIndex (hashFn key))
          (ring.clampN n r.nodes.length)) [], ?_, ?_, ?_, ?_, ?_, ?_⟩
    · unfold ring.Ring.getPreferenceList
      rw [if_neg (by omega)]
    · exact ring.collect_nodup _ _ _ _ [] List.nodup_nil
    · have h := ring.collect_len r.vnodes (r.findSuccessorIndex (hashFn key))
        (ring.clampN n r.nodes.length) (List.range r.vnodes.length) []
      simp only [List.length_nil] at h
      omega
    · have h := ring.collect_len r.vnodes (r.findSuccessorIndex (hashFn key))
        (ring.clampN n r.nodes.length) (List.range r.vnodes.length) []
      simp only [List.length_nil] at h
      have h2 := ring.clampN_le n r.nodes.length
      omega
    · intro hpos
      have h := ring.collect_len r.vnodes (r.findSuccessorIndex (hashFn key))
        (ring.clampN n r.nodes.length) (List.range r.vnodes.length) []
      simp only [List.length_nil] at h
      have h2 := ring.clampN_le_of_pos r.nodes.length hpos
      omega
    · intro x hx
      rcases ring.collect_mem r.vnodes (r.findSuccessorIndex (hashFn key))
        (ring.clampN n r.nodes.length) hvne (List.range r.vnodes.length) [] x hx
        with h | h
      · simp at h
      · obtain ⟨v, hv1, hv2⟩ := h
        rw [← hv2]
        exact hown v hv1
  · intro hashFn vc key n l l2 hp hnd hh
    exact ring.buildRing_perm_pref key n hp hnd hh

/-- Concrete two-node ring used to exercise the ring claims; the hash
function is `String.length`, which gives distinct positions for the vnode
ids used here. -/
def examplePairs : List (String × String) := [("a", "x"), ("bb", "y")]

/-- A concrete ring built from `examplePairs` (one vnode per node). -/
def exampleRing : ring.Ring := ring.buildRing String.length 1 examplePairs

/-- Witness for C1: the concrete two-node ring is well-formed and nonempty,
so the theorem produces its preference list, and permuting the adds leaves
the preference list unchanged. -/
theorem claim_C1_preference_list_witness :
    (ring.RingWF exampleRing ∧ exampleRing.nodes ≠ []
      ∧ ∃ l, exampleRing.getPreferenceList String.length "k" 1 = .ok l
          ∧ l.Nodup
          ∧ l.length ≤ ring.clampN 1 exampleRing.nodes.length
          ∧ l.length ≤ exampleRing.nodes.length
          ∧ (0 < (1 : Int) → (l.length : Int) ≤ 1)
          ∧ (∀ x ∈ l, (alookup exampleRing.nodes x).isSome = true))
    ∧ (ring.buildRing String.length 1 examplePairs).getPreferenceList
          String.length "k" 2
        = (ring.buildRing String.length 1 [("bb", "y"), ("a", "x")]).getPreferenceList
          String.length "k" 2 :=
  ⟨⟨by decide, by decide,
      claim_C1_preference_list.1 String.length exampleRing "k" 1
        (by decide) (by decide)⟩,
    claim_C1_preference_list.2 String.length 1 "k" 2 examplePairs
      [("bb", "y"), ("a", "x")] (by decide) (by decide) (by decide)⟩

/-- C7: any sequence of `AddNode`/`RemoveNode` operations on a fresh ring
preserves the invariant (vnodes sorted by position, every vnode's owner in
the node map); `RemoveNode` removes exactly the vnodes of the removed node
and its map entry; and `GetPreferenceList` never returns the removed node
afterwards. -/
theorem claim_C7_ring_invariants :
    (∀ (hashFn : String → Nat) (vc : Int) (ops : List ring.RingOp),
        ring.RingWF (ring.applyOps hashFn (ring.Ring.new vc) ops))
    ∧ (∀ (r : ring.Ring) (nid : String) (r2 : ring.Ring),
        r.removeNode nid = .ok r2 →
        (∀ v, v ∈ r2.vnodes ↔ (v ∈ r.vnodes ∧ v.nodeID ≠ nid))
          ∧ alookup r2.nodes nid = none)
    ∧ (∀ (hashFn : String → Nat) (r : ring.Ring) (nid : String)
        (r2 : ring.Ring) (key : String) (n : Int) (l : List String),
        r.removeNode nid = .ok r2 →
        r2.getPreferenceList hashFn key n = .ok l → nid ∉ l) := by
  refine ⟨?_, ?_, ?_⟩
  · intro hashFn vc ops
    exact ring.wf_applyOps ops (ring.wf_new vc)
  · intro r nid r2 h
    obtain ⟨_, hn, hv, _⟩ := ring.removeNode_ok h
    constructor
    · intro v
      rw [hv, List.mem_filter]
      simp
    · rw [hn]
      exact ring.alookup_filter_self
  · intro hashFn r nid r2 key n l h hpref hmem
    obtain ⟨_, _, hv, _⟩ := ring.removeNode_ok h
    obtain ⟨hpos, hl⟩ := ring.getPreferenceList_eq_ok hpref
    subst hl
    rcases ring.collect_mem r2.vnodes (r2.findSuccessorIndex (hashFn key))
      (ring.clampN n r2.nodes.length) hpos (List.range r2.vnodes.length) []
      nid hmem with h2 | h2
    · simp at h2
    · obtain ⟨v, hv1, hv2⟩ := h2
      rw [hv] at hv1
      obtain ⟨_, hdec⟩ := List.mem_filter.mp hv1
      have hvne : v.nodeID ≠ nid := by simpa using hdec
      exact hvne hv2

/-- Witness for C7: the invariant holds after concrete ops; removing a node
from the concrete ring removes its map entry, and the preference list after
the removal does not contain it. -/
theorem claim_C7_ring_invariants_witness :
    ring.RingWF (ring.applyOps String.length (ring.Ring.new 1)
      [ring.RingOp.add "a" "x", ring.RingOp.add "bb" "y",
        ring.RingOp.remove "a"])
    ∧ alookup (ring.applyOp String.length exampleRing
        (ring.RingOp.remove "a")).nodes "a" = none
    ∧ "a" ∉ ["bb"] :=
  ⟨claim_C7_ring_invariants.1 String.length 1 _,
    (claim_C7_ring_invariants.2.1 exampleRing "a"
      (ring.applyOp String.length exampleRing (ring.RingOp.remove "a"))
      rfl).2,
    claim_C7_ring_invariants.2.2 String.length exampleRing "a"
      (ring.applyOp String.length exampleRing (ring.RingOp.remove "a"))
      "k" 3 ["bb"] rfl rfl⟩

/-! ## The `storage` package: versioned in-memory store (src part_005) -/

namespace storage

/-- Byte slices as lists of byte values. -/
abbrev Bytes := List Nat

/-- `VersionedValue`: value bytes plus vector clock.  The Go struct also
carries a wall-clock `Timestamp` (`time.Now()` at creation), on which no
claimed property depends; real time is not modelled. -/
structure VersionedValue where
  value : Bytes
  version : clock.VectorClock
deriving DecidableEq

/-- `NewVersionedValue(value, version)`. -/
def NewVersionedValue (value : Bytes) (version : clock.VectorClock) :
    VersionedValue :=
  { value := value, version := version }

/-- `IsTombstone()`: a non-nil record with empty value and non-empty
version. -/
def IsTombstone (vv : Option VersionedValue) : Bool :=
  match vv with
  | none => false
  | some v => v.value.isEmpty && !(clock.IsEmpty v.version)

/-- `CreateTombstone(version)`: empty value marks the deletion. -/
def CreateTombstone (version : clock.VectorClock) : VersionedValue :=
  { value := [], version := version }

/-- `VersionedInMemory`: key → versioned value; the defensive `Copy` on
reads and writes is the identity under value semantics. -/
abbrev Store := List (String × VersionedValue)

/-- `GetVersioned(key)`: the record and the found flag, as an option. -/
def GetVersioned (s : Store) (key : String) : Option VersionedValue :=
  alookup s key

/-- `PutVersioned(key, value)`: rejects a nil record. -/
def PutVersioned (s : Store) (key : String) (value : Option VersionedValue) :
    Except String Store :=
  match value with
  | none => .error "cannot store nil versioned value"
  | some v => .ok (aset s key v)

/-- `DeleteVersioned(key, version)`: store a tombstone carrying `version`. -/
def DeleteVersioned (s : Store) (key : String)
    (version : clock.VectorClock) : Store :=
  aset s key (CreateTombstone version)

/-- Legacy `Get`: found only when present and not a tombstone; Go returns a
nil slice otherwise. -/
def Get (s : Store) (key : String) : Option Bytes × Bool :=
  match GetVersioned s key with
  | none => (none, false)
  | some v =>
    if IsTombstone (some v) then (none, false) else (some v.value, true)

/-- Legacy `Put`: wraps the bytes with the fixed `"legacy"` single-node
version. -/
def Put (s : Store) (key : String) (value : Bytes) : Except String Store :=
  PutVersioned s key
    (some (NewVersionedValue value (some (clock.NewWithNode "legacy"))))

/-- Legacy `Delete`: a tombstone carrying the `"legacy"` version. -/
def Delete (s : Store) (key : String) : Store :=
  DeleteVersioned s key (some (clock.NewWithNode "legacy"))

theorem Get_aset (s : Store) (k : String) (vv : VersionedValue) :
    Get (aset s k vv) k =
      if IsTombstone (some vv) then (none, false) else (some vv.value, true) := by
  unfold Get GetVersioned
  rw [alookup_aset_self]

end storage

/-! ## Claim theorems for the store (C9, C10) -/

/-- C9 (amended): `Put(k, v)` followed by `Get(k)` returns `(v, true)` for
every NON-EMPTY `v` (an empty value is classified as a tombstone by the
legacy adapter, so the claim fails for it — see the counterexample); and
`Delete(k)` followed by `Get(k)` returns `found = false` while the store
retains a tombstone record with a non-empty version vector. -/
theorem claim_C9_roundtrip :
    (∀ (s : storage.Store) (k : String) (v : storage.Bytes), v ≠ [] →
      ∃ s2, storage.Put s k v = .ok s2
        ∧ storage.Get s2 k = (some v, true))
    ∧ (∀ (s : storage.Store) (k : String),
        storage.Get (storage.Delete s k) k = (none, false)
          ∧ ∃ vv, storage.GetVersioned (storage.Delete s k) k = some vv
              ∧ storage.IsTombstone (some vv) = true
              ∧ clock.IsEmpty vv.version = false) := by
  constructor
  · intro s k v hv
    refine ⟨aset s k (storage.NewVersionedValue v
      (some (clock.NewWithNode "legacy"))), rfl, ?_⟩
    rw [storage.Get_aset]
    have ht : storage.IsTombstone (some (storage.NewVersionedValue v
        (some (clock.NewWithNode "legacy")))) = false := by
      cases v with
      | nil => exact absurd rfl hv
      | cons a t => rfl
    rw [ht]
    rfl
  · intro s k
    constructor
    · show storage.Get (aset s k
        (storage.CreateTombstone (some (clock.NewWithNode "legacy")))) k
          = (none, false)
      rw [storage.Get_aset]
      rfl
    · refine ⟨storage.CreateTombstone (some (clock.NewWithNode "legacy")),
        ?_, rfl, rfl⟩
      show alookup (aset s k
        (storage.CreateTombstone (some (clock.NewWithNode "legacy")))) k = _
      rw [alookup_aset_self]

/-- Counterexample for C9 as stated: writing the empty value and reading it
back yields `found = false`, not `(v, true)`. -/
theorem claim_C9_roundtrip_counterexample :
    storage.Put [] "k" [] = .ok
        [("k", storage.NewVersionedValue []
          (some (clock.NewWithNode "legacy")))]
      ∧ storage.Get
          [("k", storage.NewVersionedValue []
            (some (clock.NewWithNode "legacy")))] "k" = (none, false) :=
  ⟨rfl, rfl⟩

/-- Witness for C9 at a concrete non-empty value. -/
theorem claim_C9_roundtrip_witness :
    ([1] : storage.Bytes) ≠ []
      ∧ ∃ s2, storage.Put [] "k" [1] = .ok s2
          ∧ storage.Get s2 "k" = (some [1], true) :=
  ⟨by decide, claim_C9_roundtrip.1 [] "k" [1] (by decide)⟩

/-- C10: a record with empty value and non-empty version is classified as a
tombstone, so a legacy `Put` of an empty value is observationally a delete:
the following `Get` reports `found = false`. -/
theorem claim_C10_empty_put_is_delete :
    (∀ vv : storage.VersionedValue,
      storage.IsTombstone (some vv) = true
        ↔ (vv.value = [] ∧ clock.IsEmpty vv.version = false))
    ∧ (∀ (s : storage.Store) (k : String),
        ∃ s2, storage.Put s k [] = .ok s2
          ∧ storage.Get s2 k = (none, false)) := by
  constructor
  · intro vv
    unfold storage.IsTombstone
    rw [Bool.and_eq_true]
    constructor
    · rintro ⟨h1, h2⟩
      constructor
      · cases hvv : vv.value with
        | nil => rfl
        | cons a t => rw [hvv] at h1; exact absurd h1 (by simp)
      · cases hie : clock.IsEmpty vv.version with
        | false => rfl
        | true => rw [hie] at h2; exact absurd h2 (by simp)
    · rintro ⟨h1, h2⟩
      rw [h1, h2]
      exact ⟨rfl, rfl⟩
  · intro s k
    refine ⟨aset s k (storage.NewVersionedValue []
      (some (clock.NewWithNode "legacy"))), rfl, ?_⟩
    rw [storage.Get_aset]
    rfl

/-! ## The HTTP server coordinator (src/internal/server/server.go)

The write and read paths are embedded as pure functions over explicit
oracles: whether the local `storage.Put` succeeds, and whether the
replication / read call to a given peer address succeeds.  The state of the
cluster for the single key being written is a function from node id to the
optionally stored bytes, updated by each successful per-replica write — it
records what the local store write and the remote
`POST /internal/storage/{key}` calls do. -/

namespace server

/-- Per-replica outcomes of the calls issued by the write fan-out. -/
structure NetOracle where
  localPutOk : Bool
  remoteOk : String → Bool

/-- Per-node stored value for the key under consideration. -/
abbrev ClusterState := String → Option storage.Bytes

/-- A successful store of `value` on node `n`. -/
def updState (st : ClusterState) (n : String) (value : storage.Bytes) :
    ClusterState :=
  fun m => if m = n then some value else st m

/-- The loop of `writeToNodes`: walk the preference list, break once the
success count reaches the write quorum; the local node writes to its store,
for others the address is looked up and the peer called (an unknown address
is skipped).  Besides the success count the Go function returns, the
embedding also returns which nodes stored the value, and the cluster
state. -/
def writeLoop (cfgNodeID : String) (r : ring.Ring) (net : NetOracle)
    (value : storage.Bytes) (writeQuorum : Int) :
    List String → Nat → List String → ClusterState →
      Nat × List String × ClusterState
  | [], count, acc, st => (count, acc, st)
  | nodeID :: rest, count, acc, st =>
    if (count : Int) ≥ writeQuorum then (count, acc, st)
    else if nodeID = cfgNodeID then
      if net.localPutOk then
        writeLoop cfgNodeID r net value writeQuorum rest (count + 1)
          (acc ++ [nodeID]) (updState st nodeID value)
      else
        writeLoop cfgNodeID r net value writeQuorum rest count acc st
    else
      match ring.Ring.getNodeAddress r nodeID with
      | none => writeLoop cfgNodeID r net value writeQuorum rest count acc st
      | some address =>
        if net.remoteOk address then
          writeLoop cfgNodeID r net value writeQuorum rest (count + 1)
            (acc ++ [nodeID]) (updState st nodeID value)
        else
          writeLoop cfgNodeID r net value writeQuorum rest count acc st

/-- `writeToNodes(key, value, version, prefList, writeQuorum)`. -/
def writeToNodes (cfgNodeID : String) (r : ring.Ring) (net : NetOracle)
    (value : storage.Bytes) (prefList : List String) (writeQuorum : Int)
    (st : ClusterState) : Nat × List String × ClusterState :=
  writeLoop cfgNodeID r net value writeQuorum prefList 0 [] st

/-- Whether the write to one listed node succeeds, as decided by the loop
body: local store for the local node, address lookup plus peer call
otherwise. -/
def nodeWriteOk (cfgNodeID : String) (r : ring.Ring) (net : NetOracle)
    (nodeID : String) : Bool :=
  if nodeID = cfgNodeID then net.localPutOk
  else
    match ring.Ring.getNodeAddress r nodeID with
    | none => false
    | some address => net.remoteOk address

/-- The version `handlePut` attaches to every write it coordinates: the
placeholder `map[string]uint64{s.cfg.NodeID: 1}` ("placeholder for vector
clock" in the source). -/
def putVersion (cfgNodeID : String) : clock.VCMap := [(cfgNodeID, 1)]

/-- Outcomes of `handlePut` (HTTP: 200 / 500 / 503 / 500). -/
inductive PutOutcome where
  | okResp (version : clock.VCMap)
  | storeError
  | insufficientReplicas
  | ringError
deriving DecidableEq

/-- The decision logic of `handlePut` once the body is read: preference list
(error → 500), placeholder version, the single-node / quorum-1 local path,
otherwise the multi-node fan-out with the `successCount < writeQuorum`
check (503).  Returns the outcome and the cluster state after the
handler — there is no rollback step in either branch. -/
def handlePut (hashFn : String → Nat) (cfgNodeID : String)
    (replicationFactor writeQuorum : Int) (r : ring.Ring) (net : NetOracle)
    (key : String) (body : storage.Bytes) (st : ClusterState) :
    PutOutcome × ClusterState :=
  match r.getPreferenceList hashFn key replicationFactor with
  | .error _ => (.ringError, st)
  | .ok prefList =>
    if prefList.length = 1 ∨ writeQuorum = 1 then
      if net.localPutOk then
        (.okResp (putVersion cfgNodeID), updState st cfgNodeID body)
      else (.storeError, st)
    else
      let res := writeToNodes cfgNodeID r net body prefList writeQuorum st
      if (res.1 : Int) < writeQuorum then (.insufficientReplicas, res.2.2)
      else (.okResp (putVersion cfgNodeID), res.2.2)

/-- `api.GetResponse`: the client-facing read response; the `Versions` field
exists but is never populated by the read path. -/
structure GetResponse where
  key : String
  value : Option storage.Bytes
  versions : List clock.VCMap
  found : Bool
deriving DecidableEq

/-- The zero value of `api.GetResponse` (`var response api.GetResponse`). -/
def defaultGetResponse : GetResponse :=
  { key := "", value := none, versions := [], found := false }

/-- `api.ReplicateGetResponse`: what a peer's internal read endpoint
returns; it carries the replica's version map. -/
structure ReplicateGetResponse where
  key : String
  value : Option storage.Bytes
  version : clock.VectorClock
  found : Bool
deriving DecidableEq

/-- `readFromRemoteNode`: converts a peer response to a `GetResponse`,
dropping the version and leaving `Versions` empty. -/
def convertRemoteResponse (res : ReplicateGetResponse) : GetResponse :=
  { key := res.key, value := res.value, versions := [], found := res.found }

/-- Per-replica outcomes of the calls issued by the read fan-out; a `none`
remote result models a failed call (timeout, non-200, decode error). -/
structure ReadOracle where
  localRead : Option storage.Bytes × Bool
  remoteRead : String → Option ReplicateGetResponse

/-- The response `readFromNodes` builds from the local store read: no
version information is attached. -/
def localReadResponse (key : String) (oracle : ReadOracle) : GetResponse :=
  { key := key
    value := oracle.localRead.1
    versions := []
    found := oracle.localRead.2 }

/-- The loop of `readFromNodes`: collect responses until the read quorum is
reached; the local node reads its store, peers are read through
`readFromRemoteNode`; failed calls and unknown addresses are skipped. -/
def readLoop (cfgNodeID : String) (r : ring.Ring) (oracle : ReadOracle)
    (key : String) (readQuorum : Int) :
    List String → List GetResponse → List GetResponse
  | [], responses => responses
  | nodeID :: rest, responses =>
    if (responses.length : Int) ≥ readQuorum then responses
    else if nodeID = cfgNodeID then
      readLoop cfgNodeID r oracle key readQuorum rest
        (responses ++ [localReadResponse key oracle])
    else
      match ring.Ring.getNodeAddress r nodeID with
      | none => readLoop cfgNodeID r oracle key readQuorum rest responses
      | some address =>
        match oracle.remoteRead address with
        | none => readLoop cfgNodeID r oracle key readQuorum rest responses
        | some res =>
          readLoop cfgNodeID r oracle key readQuorum rest
            (responses ++ [convertRemoteResponse res])

/-- `readFromNodes(key, prefList, readQuorum)`. -/
def readFromNodes (cfgNodeID : String) (r : ring.Ring) (oracle : ReadOracle)
    (key : String) (prefList : List String) (readQuorum : Int) :
    List GetResponse :=
  readLoop cfgNodeID r oracle key readQuorum prefList []

/-- The selection in `handleGet` once the quorum is met: "For now, return
the first successful response" (the zero response when none is found). -/
def firstFoundResponse (responses : List GetResponse) : GetResponse :=
  match responses.find? (fun resp => resp.found) with
  | some resp => resp
  | none => defaultGetResponse

theorem nodeWriteOk_local {cfgNodeID : String} {r : ring.Ring}
    {net : NetOracle} {n : String} (hn : n = cfgNodeID) :
    nodeWriteOk cfgNodeID r net n = net.localPutOk := by
  unfold nodeWriteOk
  rw [if_pos hn]

theorem nodeWriteOk_addr_none {cfgNodeID : String} {r : ring.Ring}
    {net : NetOracle} {n : String} (hn : ¬ n = cfgNodeID)
    (ha : ring.Ring.getNodeAddress r n = none) :
    nodeWriteOk cfgNodeID r net n = false := by
  unfold nodeWriteOk
  rw [if_neg hn, ha]

theorem nodeWriteOk_addr_some {cfgNodeID : String} {r : ring.Ring}
    {net : NetOracle} {n address : String} (hn : ¬ n = cfgNodeID)
    (ha : ring.Ring.getNodeAddress r n = some address) :
    nodeWriteOk cfgNodeID r net n = net.remoteOk address := by
  unfold nodeWriteOk
  rw [if_neg hn, ha]

theorem writeLoop_ge {cfgNodeID : String} {r : ring.Ring} {net : NetOracle}
    {value : storage.Bytes} {W : Int} (lst : List String) {count : Nat}
    (acc : List String) (st : ClusterState) (h : (count : Int) ≥ W) :
    writeLoop cfgNodeID r net value W lst count acc st = (count, acc, st) := by
  cases lst with
  | nil => rfl
  | cons n rest =>
    unfold writeLoop
    rw [if_pos h]

theorem writeLoop_cons_skip {cfgNodeID : String} {r : ring.Ring}
    {net : NetOracle} {value : storage.Bytes} {W : Int} {n : String}
    {rest : List String} {count : Nat} {acc : List String}
    {st : ClusterState} (hge : ¬ (count : Int) ≥ W)
    (hok : nodeWriteOk cfgNodeID r net n = false) :
    writeLoop cfgNodeID r net value W (n :: rest) count acc st
      = writeLoop cfgNodeID r net value W rest count acc st := by
  conv_lhs => rw [writeLoop]
  rw [if_neg hge]
  by_cases hn : n = cfgNodeID
  · rw [if_pos hn]
    rw [nodeWriteOk_local hn] at hok
    rw [hok]
    simp
  · rw [if_neg hn]
    split
    · rfl
    · rename_i address ha
      have hr : net.remoteOk address = false := by
        rw [nodeWriteOk_addr_some hn ha] at hok
        exact hok
      rw [hr]
      simp

theorem writeLoop_cons_hit {cfgNodeID : String} {r : ring.Ring}
    {net : NetOracle} {value : storage.Bytes} {W : Int} {n : String}
    {rest : List String} {count : Nat} {acc : List String}
    {st : ClusterState} (hge : ¬ (count : Int) ≥ W)
    (hok : nodeWriteOk cfgNodeID r net n = true) :
    writeLoop cfgNodeID r net value W (n :: rest) count acc st
      = writeLoop cfgNodeID r net value W rest (count + 1) (acc ++ [n])
          (updState st n value) := by
  conv_lhs => rw [writeLoop]
  rw [if_neg hge]
  by_cases hn : n = cfgNodeID
  · rw [if_pos hn]
    rw [nodeWriteOk_local hn] at hok
    rw [hok]
    simp
  · rw [if_neg hn]
    split
    · rename_i ha
      rw [nodeWriteOk_addr_none hn ha] at hok
      exact absurd hok (by simp)
    · rename_i address ha
      have hr : net.remoteOk address = true := by
        rw [nodeWriteOk_addr_some hn ha] at hok
        exact hok
      rw [hr]
      simp

theorem writeLoop_count {cfgNodeID : String} {r : ring.Ring}
    {net : NetOracle} {value : storage.Bytes} {W : Int} :
    ∀ (lst : List String) (count : Nat) (acc : List String)
      (st : ClusterState), (count : Int) < W →
      ((writeLoop cfgNodeID r net value W lst count acc st).1 : Int)
        = min W (count + lst.countP (nodeWriteOk cfgNodeID r net)) := by
  intro lst
  induction lst with
  | nil =>
    intro count acc st h
    simp only [writeLoop, List.countP_nil]
    omega
  | cons n rest ih =>
    intro count acc st h
    rw [List.countP_cons]
    rcases Bool.eq_false_or_eq_true (nodeWriteOk cfgNodeID r net n)
      with hok | hok
    · rw [hok]
      have hone : (if (true : Bool) = true then 1 else 0) = 1 := rfl
      rw [hone, writeLoop_cons_hit (by omega) hok]
      by_cases h2 : ((count + 1 : Nat) : Int) < W
      · rw [ih (count + 1) (acc ++ [n]) (updState st n value) h2]
        push_cast
        omega
      · rw [writeLoop_ge rest _ _ (by omega)]
        push_cast
        omega
    · rw [hok]
      have hzero : (if (false : Bool) = true then 1 else 0) = 0 := rfl
      rw [hzero, writeLoop_cons_skip (by omega) hok, ih count acc st h]
      omega

theorem writeLoop_acc_state {cfgNodeID : String} {r : ring.Ring}
    {net : NetOracle} {value : storage.Bytes} {W : Int} :
    ∀ (lst : List String) (count : Nat) (acc : List String)
      (st : ClusterState), (∀ n ∈ acc, st n = some value) →
      (∀ n ∈ (writeLoop cfgNodeID r net value W lst count acc st).2.1,
        (writeLoop cfgNodeID r net value W lst count acc st).2.2 n
          = some value)
      ∧ (∀ x ∈ (writeLoop cfgNodeID r net value W lst count acc st).2.1,
          x ∈ acc ∨ x ∈ lst) := by
  intro lst
  induction lst with
  | nil =>
    intro count acc st hinv
    exact ⟨hinv, fun x hx => Or.inl hx⟩
  | cons n rest ih =>
    intro count acc st hinv
    by_cases hge : (count : Int) ≥ W
    · rw [writeLoop_ge _ _ _ hge]
      exact ⟨hinv, fun x hx => Or.inl hx⟩
    · have hinv2 : ∀ m ∈ acc ++ [n], updState st n value m = some value := by
        intro m hm
        unfold updState
        by_cases hmn : m = n
        · rw [if_pos hmn]
        · rw [if_neg hmn]
          rcases List.mem_append.mp hm with h1 | h1
          · exact hinv m h1
          · exact absurd (List.mem_singleton.mp h1) hmn
      cases hok : nodeWriteOk cfgNodeID r net n with
      | false =>
        rw [writeLoop_cons_skip hge hok]
        obtain ⟨ha, hb⟩ := ih count acc st hinv
        exact ⟨ha, fun x hx => (hb x hx).imp id (List.mem_cons_of_mem n)⟩
      | true =>
        rw [writeLoop_cons_hit hge hok]
        obtain ⟨ha, hb⟩ := ih (count + 1) (acc ++ [n]) (updState st n value)
          hinv2
        refine ⟨ha, fun x hx => ?_⟩
        rcases hb x hx with h1 | h1
        · rcases List.mem_append.mp h1 with h2 | h2
          · exact Or.inl h2
          · exact Or.inr ((List.mem_singleton.mp h2) ▸ List.mem_cons_self _ _)
        · exact Or.inr (List.mem_cons_of_mem _ h1)

theorem handlePut_multi {hashFn : String → Nat} {cfgNodeID : String}
    {N W : Int} {r : ring.Ring} {net : NetOracle} {key : String}
    {body : storage.Bytes} {st : ClusterState} {prefList : List String}
    (hpref : r.getPreferenceList hashFn key N = .ok prefList)
    (hmulti : ¬ (prefList.length = 1 ∨ W = 1)) :
    handlePut hashFn cfgNodeID N W r net key body st =
      (if ((writeToNodes cfgNodeID r net body prefList W st).1 : Int) < W
        then (PutOutcome.insufficientReplicas,
          (writeToNodes cfgNodeID r net body prefList W st).2.2)
        else (PutOutcome.okResp (putVersion cfgNodeID),
          (writeToNodes cfgNodeID r net body prefList W st).2.2)) := by
  unfold handlePut
  split
  · rename_i e he
    rw [hpref] at he
    exact absurd he (by simp)
  · rename_i pl hpl
    rw [hpref] at hpl
    have hple : prefList = pl := Except.ok.inj hpl
    subst hple
    rw [if_neg hmulti]

theorem writeToNodes_count_lt {cfgNodeID : String} {r : ring.Ring}
    {net : NetOracle} {value : storage.Bytes} {prefList : List String}
    {W : Int} {st : ClusterState} :
    (((writeToNodes cfgNodeID r net value prefList W st).1 : Int) < W)
      ↔ ((prefList.countP (nodeWriteOk cfgNodeID r net) : Int) < W) := by
  by_cases hW : (0 : Int) < W
  · show (((writeLoop cfgNodeID r net value W prefList 0 [] st).1 : Int) < W)
      ↔ _
    rw [writeLoop_count prefList 0 [] st (by omega)]
    omega
  · show (((writeLoop cfgNodeID r net value W prefList 0 [] st).1 : Int) < W)
      ↔ _
    rw [writeLoop_ge prefList [] st (by omega)]
    show (((0 : Nat) : Int) < W) ↔ _
    omega

end server

/-! ## Claim theorems for the coordinator (C3, C4, C5, C8) -/

/-- C4: in the multi-node write path, `handlePut` returns
`InsufficientReplicas` exactly when walking the whole preference list cannot
produce `W` per-replica successes (local store write for the local node,
remote replication call otherwise); the cluster state returned by the
handler is the fan-out's state unchanged — every node that accepted the
write still holds it, also on quorum failure — and only listed nodes are
written. -/
theorem claim_C4_write_quorum :
    ∀ (hashFn : String → Nat) (cfgNodeID : String) (N W : Int)
      (r : ring.Ring) (net : server.NetOracle) (key : String)
      (body : storage.Bytes) (st : server.ClusterState)
      (prefList : List String),
      r.getPreferenceList hashFn key N = .ok prefList →
      ¬ (prefList.length = 1 ∨ W = 1) →
      ((server.handlePut hashFn cfgNodeID N W r net key body st).1
          = .insufficientReplicas
        ↔ ((prefList.countP (server.nodeWriteOk cfgNodeID r net) : Int) < W))
      ∧ (server.handlePut hashFn cfgNodeID N W r net key body st).2
          = (server.writeToNodes cfgNodeID r net body prefList W st).2.2
      ∧ (∀ x ∈ (server.writeToNodes cfgNodeID r net body prefList W st).2.1,
          (server.writeToNodes cfgNodeID r net body prefList W st).2.2 x
            = some body
          ∧ (server.handlePut hashFn cfgNodeID N W r net key body st).2 x
            = some body
          ∧ x ∈ prefList) := by
  intro hashFn cfgNodeID N W r net key body st prefList hpref hmulti
  rw [server.handlePut_multi hpref hmulti]
  have hacc := @server.writeLoop_acc_state cfgNodeID r net body W
    prefList 0 [] st (by intro n hn; simp at hn)
  refine ⟨?_, ?_, ?_⟩
  · by_cases hc : ((server.writeToNodes cfgNodeID r net body prefList W st).1
        : Int) < W
    · rw [if_pos hc]
      constructor
      · intro
        exact server.writeToNodes_count_lt.mp hc
      · intro
        rfl
    · rw [if_neg hc]
      constructor
      · intro hh
        exact absurd hh (by simp)
      · intro hh
        exact absurd (server.writeToNodes_count_lt.mpr hh) hc
  · by_cases hc : ((server.writeToNodes cfgNodeID r net body prefList W st).1
        : Int) < W
    · rw [if_pos hc]
    · rw [if_neg hc]
  · intro x hx
    refine ⟨hacc.1 x hx, ?_, ?_⟩
    · by_cases hc : ((server.writeToNodes cfgNodeID r net body prefList W st).1
          : Int) < W
      · rw [if_pos hc]
        exact hacc.1 x hx
      · rw [if_neg hc]
        exact hacc.1 x hx
    · rcases hacc.2 x hx with h | h
      · simp at h
      · exact h

/-- A concrete three-node ring (one vnode per node, `String.length` hash):
the preference list for key `"k"` with `N = 3` is `["a", "bb", "ccc"]`. -/
def exampleRing3 : ring.Ring :=
  ring.buildRing String.length 1 [("a", "x"), ("bb", "y"), ("ccc", "z")]

/-- Replica outcomes: the local store write succeeds, the peer at address
`"y"` is reachable, the peer at `"z"` is down. -/
def exampleNet : server.NetOracle :=
  { localPutOk := true, remoteOk := fun ad => ad == "y" }

/-- Witness for C4: on the concrete ring with `W = 2` and one of the two
remote replicas down, two successes are collected and the write is not
rejected. -/
theorem claim_C4_write_quorum_witness :
    exampleRing3.getPreferenceList String.length "k" 3 = .ok ["a", "bb", "ccc"]
      ∧ ¬ ((["a", "bb", "ccc"] : List String).length = 1 ∨ (2 : Int) = 1)
      ∧ ¬ ((server.handlePut String.length "a" 3 2 exampleRing3 exampleNet
          "k" [7] (fun _ => none)).1 = .insufficientReplicas) :=
  ⟨rfl, by decide, fun hc =>
    absurd ((claim_C4_write_quorum String.length "a" 3 2 exampleRing3
        exampleNet "k" [7] (fun _ => none) ["a", "bb", "ccc"] rfl
        (by decide)).1.mp hc)
      (by decide)⟩

/-- C5 (code bug): `handlePut` attaches the constant placeholder version
`{cfg.NodeID: 1}` to every coordinated write instead of merging the current
local version and incrementing.  Consequently a second write by the same
coordinator carries a version equal to (not strictly dominating) the first
one, and an existing local version such as `{n1: 5}` strictly dominates the
version the coordinator propagates. -/
theorem claim_C5_version_placeholder :
    server.putVersion "n1" = [("n1", 1)]
      ∧ clock.compareMaps (server.putVersion "n1") (server.putVersion "n1") = 0
      ∧ clock.compareMaps (server.putVersion "n1") [("n1", 5)] = -1 :=
  ⟨rfl, by decide, by decide⟩

/-- A concrete four-node ring for the sloppy-quorum scenario. -/
def exampleRing4 : ring.Ring :=
  ring.buildRing String.length 1
    [("n1", "u1"), ("n2", "u2"), ("n3", "u3"), ("n4", "u4")]

/-- Replica outcomes: the local store write succeeds, the peers at `"u2"`
and `"u3"` are unreachable, the peer at `"u4"` is reachable. -/
def exampleNet4 : server.NetOracle :=
  { localPutOk := true, remoteOk := fun ad => ad == "u4" }

/-- C8 (code bug): with the nominal preference list `["n1", "n2", "n3"]`
(`N = 3`), `W = 2`, and two of the listed replicas unreachable, the fan-out
collects one success and misses the quorum, although the reachable node
`"n4"` lies just beyond the nominal list: the walk never extends past the
preference list, `"n4"` receives nothing. -/
theorem claim_C8_no_sloppy_extension :
    (server.writeToNodes "n1" exampleRing4 exampleNet4 [7]
        ["n1", "n2", "n3"] 2 (fun _ => none)).1 = 1
      ∧ (((server.writeToNodes "n1" exampleRing4 exampleNet4 [7]
          ["n1", "n2", "n3"] 2 (fun _ => none)).1 : Int) < 2)
      ∧ (server.writeToNodes "n1" exampleRing4 exampleNet4 [7]
          ["n1", "n2", "n3"] 2 (fun _ => none)).2.1 = ["n1"]
      ∧ (server.writeToNodes "n1" exampleRing4 exampleNet4 [7]
          ["n1", "n2", "n3"] 2 (fun _ => none)).2.2 "n4" = none
      ∧ exampleNet4.remoteOk "u4" = true :=
  ⟨rfl, by decide, rfl, rfl, rfl⟩

/-- A concrete two-node ring for the read path. -/
def exampleRing2 : ring.Ring :=
  ring.buildRing String.length 1 [("n1", "u1"), ("n2", "u2")]

/-- Read outcomes: the local store holds `[1]`; the peer at `"u2"` answers
with `[2]` under version `{n2: 1}` — concurrent with the local write's
hypothetical version `{n1: 1}`. -/
def exampleReadOracle : server.ReadOracle :=
  { localRead := (some [1], true)
    remoteRead := fun ad =>
      if ad == "u2" then
        some { key := "k", value := some [2]
               version := some [("n2", 1)], found := true }
      else none }

/-- C3 (code bug): with two found responses whose replica versions are
mutually concurrent, `handleGet`'s selection returns only the first found
response; the sibling value `[2]` is dropped, and no `Versions` are ever
attached (the remote version map is discarded on conversion). -/
theorem claim_C3_first_found_selection :
    exampleRing2.getPreferenceList String.length "k" 2 = .ok ["n1", "n2"]
      ∧ server.readFromNodes "n1" exampleRing2 exampleReadOracle "k"
          ["n1", "n2"] 2
        = [{ key := "k", value := some [1], versions := [], found := true },
           { key := "k", value := some [2], versions := [], found := true }]
      ∧ server.firstFoundResponse (server.readFromNodes "n1" exampleRing2
          exampleReadOracle "k" ["n1", "n2"] 2)
        = { key := "k", value := some [1], versions := [], found := true }
      ∧ (server.convertRemoteResponse
          { key := "k", value := some [2]
            version := some [("n2", 1)], found := true }).versions = []
      ∧ clock.compareMaps [("n1", 1)] [("n2", 1)] = 0 :=
  ⟨rfl, rfl, rfl, rfl, by decide⟩

end DHT
